import Mathlib

/-!
Verification of the reconciliation engine of `simpletasks_data`
(`importtask.py`, `importsource.py`, `mapping.py`).

The development shallowly embeds the matching / diff-staging / apply engine:
Python values that flow through the engine are modelled by `Val`, exceptions
by `Exc`, Python dicts (keyed on object identity for records, on `==` for key
lookups) by association lists, and records by an identity handle plus a field
map.  Mutation is modelled by explicit state passing; fallible code returns
`Except Exc`.  Hooks the engine calls (`should_import`, per-source
`validate_updates`, `pre_process`, ...) are function-valued parameters of the
embedded configuration; hooks whose repository defaults are no-ops
(`on_data_not_found`) are modelled by those defaults.
-/

namespace SimpletasksData

/-- Python values relevant to the engine: `None`, strings and integers. -/
inductive Val where
  | none
  | str (s : String)
  | int (n : Int)
deriving DecidableEq

/-- Python truthiness of a `Val` (used for `warn_if_empty` / `if not item_history`). -/
def Val.isTruthy : Val → Bool
  | .none => false
  | .str s => !s.isEmpty
  | .int n => n != 0

/-- Python exception classes that can arise during column extraction. -/
inductive Exc where
  | valueError
  | keyError
  | attributeError
  | indexError
  | other
deriving DecidableEq

/-- The classes caught by the `except (ValueError, KeyError, AttributeError)`
clause in `ImportTask._parseSource`.  Note `IndexError` is *not* caught. -/
def Exc.isData : Exc → Bool
  | .valueError => true
  | .keyError => true
  | .attributeError => true
  | _ => false

deriving instance DecidableEq for Except

/-- The default comparator `lambda x, y: x == y`. -/
def pyEq (x y : Val) : Bool := x = y

section AList

variable {κ : Type} {ν : Type} [DecidableEq κ]

/-- Association-list lookup, modelling Python `d[k]` / `k in d`. -/
def alookup (k : κ) : List (κ × ν) → Option ν
  | [] => Option.none
  | (k', v) :: rest => if k' = k then some v else alookup k rest

/-- Association-list write, modelling Python `d[k] = v` (replaces in place,
appends if absent — Python dicts preserve insertion order). -/
def aset (k : κ) (v : ν) : List (κ × ν) → List (κ × ν)
  | [] => [(k, v)]
  | (k', v') :: rest => if k' = k then (k, v) :: rest else (k', v') :: aset k v rest

/-- Association-list delete, modelling Python `del d[k]` (keys are unique). -/
def aerase (k : κ) : List (κ × ν) → List (κ × ν)
  | [] => []
  | (k', v') :: rest => if k' = k then rest else (k', v') :: aerase k rest

end AList



/-- Python `set.add` on a list-modelled set (adds only if absent). -/
def sadd (x : String) (l : List String) : List String :=
  if x ∈ l then l else l ++ [x]

/-! ## Records

A destination record (SQLAlchemy model instance) is an object identity
(`rid`, playing the role of Python object identity — `self.updates` and
`dataNotRead` are keyed on it) together with its named fields.  `getattr`
on a mapped model yields `None` for columns never assigned, hence the
`.none` default. -/

/-- A field-name → value map (`getattr`/`setattr` view of a model). -/
abbrev FieldMap := List (String × Val)

structure Record where
  rid : Nat
  fields : FieldMap
deriving DecidableEq

/-- `getattr(item, name)`. -/
def Record.getF (r : Record) (name : String) : Val :=
  (alookup name r.fields).getD .none

/-- `setattr(item, name, v)`. -/
def Record.setF (r : Record) (name : String) (v : Val) : Record :=
  { r with fields := aset name v r.fields }

/-! ## The Column model (`mapping.py`, class `Column`)

The CSV positional column: `get_raw_values` reads `row[column_number]`
(`fail_on_out_of_range` decides between raising `IndexError` and yielding
`""`), `get` parses the raw value through the (possibly user-supplied)
parser, memoising the result in the run-wide value cache `_Caching.values`
keyed on column identity (`cid`, the stable handle for Python object
identity of the column).  The parser is user code and may raise any of the
data-shaped exceptions. -/

/-- The per-row value cache `_Caching.values`, keyed by column identity. -/
abbrev Cache := List (Nat × Val)

structure Column where
  cid : Nat
  column_number : Nat
  parseFn : String → Except Exc Val
  warn_on_error : Bool := true
  warn_if_empty : Bool := false
  should_update : Bool := true
  should_update_only_if_null : Bool := false
  keep_history : Bool := false
  comparator : Val → Val → Bool := pyEq
  fail_on_out_of_range : Bool := true

/-- `Column.get_raw_values` (mapping.py:146-161).  With
`fail_on_out_of_range` an out-of-bounds index raises `IndexError`;
otherwise the `IndexError` is caught and `[""]` returned. -/
def Column.get_raw_values (c : Column) (row : List String) : Except Exc (List String) :=
  if c.fail_on_out_of_range then
    match row.get? c.column_number with
    | some s => .ok [s]
    | Option.none => .error .indexError
  else
    match row.get? c.column_number with
    | some s => .ok [s]
    | Option.none => .ok [""]

/-- The cache-free part of `Column.get`: `self.parser(self.get_raw_values(row)[0])`. -/
def Column.pureGet (c : Column) (row : List String) : Except Exc Val :=
  match c.get_raw_values row with
  | .error e => .error e
  | .ok [] => .error .indexError
  | .ok (s :: _) => c.parseFn s

/-- `Column.get` (mapping.py:163-179): consult the value cache by column
identity; on a miss compute `parser(get_raw_values(row)[0])` and memoise it.
Nothing is cached when an exception escapes. -/
def Column.get (c : Column) (row : List String) (cache : Cache) :
    Except Exc Val × Cache :=
  match alookup c.cid cache with
  | some v => (.ok v, cache)
  | Option.none =>
    match c.pureGet row with
    | .error e => (.error e, cache)
    | .ok v => (.ok v, aset c.cid v cache)

/-! ## Import sources (`importsource.py`)

A bound source: its mapping's columns (`importer_mapping.items()`, the key
column included), the key column and name, the mapping's key-column
comparator and header-line count, the import mode, the rows its data
generator yields, and its row hooks.  `should_import` is an overridable
method with access to the process-wide `_Caching` singleton, so it is
modelled as a cache-passing function; `validate_updates` defaults to `True`
and is modelled as a pure predicate on (item, row, staged updates,
creating). -/

structure Source where
  columns : List (String × Column)
  keycolumn_name : String
  keycolumn : Column
  key_comparator : Val → Val
  header_line_number : Int := 0
  mode_create : Bool := true
  mode_update : Bool := true
  should_import : List String → Cache → Bool × Cache := fun _ c => (true, c)
  validate_updates : Record → List String → List (String × Val) → Bool → Bool :=
    fun _ _ _ _ => true
  rows : List (List String) := []

/-- `ImportSource.get_key` (importsource.py:74-86): parse the key column
(via the cache); `None` stays `None`, otherwise the key-column comparator is
applied.  A comparator returning `None` is also reported as a missing key by
the caller. -/
def Source.get_key (s : Source) (row : List String) (cache : Cache) :
    Except Exc Val × Cache :=
  match s.keycolumn.get row cache with
  | (.error e, c) => (.error e, c)
  | (.ok v, c) =>
    if v = .none then (.ok .none, c)
    else (.ok (s.key_comparator v), c)

/-! ## The import engine (`importtask.py`)

`self.updates` is a dict keyed on record identity whose values are triples
`(field map of staged values, set of field names flagged for history,
creating flag)` — the Pending Update Set. -/

structure PendingEntry where
  updates : List (String × Val)
  hist : List String
  creating : Bool
deriving DecidableEq

/-- The Pending Update Set `self.updates`. -/
abbrev UpdatesMap := List (Nat × PendingEntry)

/-- The whole-run configuration of an `ImportTask`: the run-wide history
flag, `createModel`'s initial fields, the set of required-non-null columns
(computed from the schema in `do`), the loaded model data (`get_model_data`,
identities are assigned at load), the sources, and the four external hooks'
outputs. -/
structure Task where
  keep_history : Bool := false
  createFields : FieldMap := []
  nonNullableColumns : List String := []
  modelData : List FieldMap := []
  sources : List Source := []
  pre_process : List (String × Int) := []
  post_process : List (String × Int) := []
  pre_commit : List (String × Int) := []
  post_commit : List (String × Int) := []

/-- The engine's mutable state during the matching phase: the working set
`self.rawData`, the next fresh record identity, the Pending Update Set
`self.updates`, and the value cache `_Caching.values`. -/
structure EngineState where
  rawData : List Record
  nextRid : Nat
  updates : UpdatesMap
  cache : Cache
deriving DecidableEq

/-- `ImportTask.is_updated` (importtask.py:124-134). -/
def is_updated (updates : UpdatesMap) (rid : Nat) (column : String) : Bool :=
  match alookup rid updates with
  | some e => (alookup column e.updates).isSome
  | Option.none => false

/-- `ImportTask.get_updated_value_for` (importtask.py:136-150): the staged
value if one is pending for this field, else the record's live value. -/
def get_updated_value_for (updates : UpdatesMap) (item : Record) (column : String) : Val :=
  match alookup item.rid updates with
  | some e =>
    match alookup column e.updates with
    | some v => v
    | Option.none => item.getF column
  | Option.none => item.getF column

/-- `ImportTask.set_updated_value_for` (importtask.py:152-167): create the
entry `({}, set(), False)` if absent, stage the value, and add the field to
the history-flag set when `keep_history` is passed. -/
def set_updated_value_for (updates : UpdatesMap) (rid : Nat) (column : String)
    (value : Val) (kh : Bool) : UpdatesMap :=
  match alookup rid updates with
  | Option.none =>
    aset rid
      { updates := [(column, value)]
        hist := if kh then [column] else []
        creating := false }
      updates
  | some e =>
    aset rid
      { e with
        updates := aset column value e.updates
        hist := if kh then sadd column e.hist else e.hist }
      updates

/-- `ImportTask.cancel_updated_value_for` (importtask.py:169-179):
`del self.updates[item][0][column]` (raising `KeyError` when absent),
discard the history flag, and drop the whole entry when the staged field
map becomes empty. -/
def cancel_updated_value_for (updates : UpdatesMap) (rid : Nat) (column : String) :
    Except Exc UpdatesMap :=
  match alookup rid updates with
  | Option.none => .error .keyError
  | some e =>
    match alookup column e.updates with
    | Option.none => .error .keyError
    | some _ =>
      let e' : PendingEntry :=
        { e with updates := aerase column e.updates, hist := e.hist.erase column }
      if e'.updates = [] then .ok (aerase rid updates)
      else .ok (aset rid e' updates)

/-- Per-source counters returned by `ImportTask._parseSource`. -/
structure SourceCounters where
  read : Nat := 0
  ignored : Nat := 0
  ignored_missing_id : Nat := 0
  ignored_not_created : Nat := 0
  ignored_not_updated : Nat := 0
  rejected : Nat := 0
  not_found : Nat := 0
deriving DecidableEq

/-- State threaded through `_parseSource`'s row loop: the engine state, the
counters, the key → record lookup `data`, and the `dataNotRead` identity
set. -/
structure ParseState where
  es : EngineState
  counters : SourceCounters
  data : List (Val × Record)
  dataNotRead : List Nat
deriving DecidableEq

/-- The body of the per-column loop of `ImportTask._parseSource`
(importtask.py:251-284).  The `try` block wraps `_column.get`, the
comparisons and the cancel/stage branch; its `except` clause catches only
the data-shaped exception classes, and — when `warn_on_error` is set — the
warning it logs re-evaluates `_column.get_raw_values(row)`, whose own
exception would escape uncaught. -/
def processColumn (es : EngineState) (item : Record) (creating : Bool)
    (row : List String) (nc : String × Column) : Except Exc EngineState :=
  let name := nc.1
  let col := nc.2
  if creating = false ∧ col.should_update = false then .ok es
  else
    let old_value := get_updated_value_for es.updates item name
    if creating = false ∧ col.should_update_only_if_null = true ∧ old_value ≠ Val.none then
      .ok es
    else
      match col.get row es.cache with
      | (.ok new_value, cache') =>
        let es' := { es with cache := cache' }
        if col.comparator new_value old_value = true then .ok es'
        else
          let real_old_value := item.getF name
          if col.comparator new_value real_old_value = true then
            match cancel_updated_value_for es'.updates item.rid name with
            | .ok u => .ok { es' with updates := u }
            | .error e =>
              if e.isData = true then
                if col.warn_on_error = true then
                  match col.get_raw_values row with
                  | .ok _ => .ok es'
                  | .error e2 => .error e2
                else .ok es'
              else .error e
          else
            .ok { es' with
                  updates := set_updated_value_for es'.updates item.rid name new_value
                    (!creating && col.keep_history) }
      | (.error e, cache') =>
        let es' := { es with cache := cache' }
        if e.isData = true then
          if col.warn_on_error = true then
            match col.get_raw_values row with
            | .ok _ => .ok es'
            | .error e2 => .error e2
          else .ok es'
        else .error e

/-- The per-column loop `for name, _column in source.get_columns()`. -/
def processColumns (source : Source) (es : EngineState) (item : Record)
    (creating : Bool) (row : List String) : Except Exc EngineState :=
  source.columns.foldlM (fun es nc => processColumn es item creating row nc) es

/-- The tail of the row loop shared by the creating and updating branches
(importtask.py:251-297): run the column loop, count the row as read, call
the source's `validate_updates` when the record has a pending entry
(discarding the whole entry and counting a rejection on veto), and append a
newly created record to the working set and this source's key lookup. -/
def processMatchedRow (source : Source) (ps : ParseState) (es0 : EngineState)
    (item : Record) (creating : Bool) (key : Val) (row : List String)
    (dnr : List Nat) : Except Exc ParseState :=
  match processColumns source es0 item creating row with
  | .error e => .error e
  | .ok es1 =>
    let counters1 := { ps.counters with read := ps.counters.read + 1 }
    let rej : Bool :=
      match alookup item.rid es1.updates with
      | some en => !(source.validate_updates item row en.updates creating)
      | Option.none => false
    if rej = true then
      .ok ⟨{ es1 with updates := aerase item.rid es1.updates },
           { counters1 with rejected := counters1.rejected + 1 }, ps.data, dnr⟩
    else if creating = true then
      .ok ⟨{ es1 with rawData := es1.rawData ++ [item] }, counters1,
           if key = Val.none then ps.data else aset key item ps.data, dnr⟩
    else
      .ok ⟨es1, counters1, ps.data, dnr⟩

/-- One iteration of the row loop of `ImportTask._parseSource`
(importtask.py:219-297).  Ordering is as in the source: header skip, then
the `should_import` hook (evaluated on the *uncleared* cache), then
`_Caching.values.clear()`, then key extraction (whose exceptions are
uncaught), then matching and the column loop. -/
def processRow (task : Task) (source : Source) (ps : ParseState)
    (line_idx : Nat) (row : List String) : Except Exc ParseState :=
  if (line_idx : Int) ≤ source.header_line_number then .ok ps
  else
    match source.should_import row ps.es.cache with
    | (false, cache') =>
      .ok { ps with
            es := { ps.es with cache := cache' }
            counters := { ps.counters with ignored := ps.counters.ignored + 1 } }
    | (true, _) =>
      match source.get_key row ([] : Cache) with
      | (.error e, _) => .error e
      | (.ok key, cache1) =>
        if key = Val.none then
          .ok { ps with
                es := { ps.es with cache := cache1 }
                counters := { ps.counters with
                              ignored_missing_id := ps.counters.ignored_missing_id + 1 } }
        else
          match alookup key ps.data with
          | Option.none =>
            if source.mode_create = false then
              .ok { ps with
                    es := { ps.es with cache := cache1 }
                    counters := { ps.counters with
                                  ignored_not_created := ps.counters.ignored_not_created + 1 } }
            else
              let item : Record := { rid := ps.es.nextRid, fields := task.createFields }
              let es0 := { ps.es with
                           cache := cache1
                           nextRid := ps.es.nextRid + 1
                           updates := aset item.rid ⟨[], [], true⟩ ps.es.updates }
              processMatchedRow source ps es0 item true key row ps.dataNotRead
          | some item =>
            let dnr := ps.dataNotRead.erase item.rid
            if source.mode_update = false then
              .ok { ps with
                    es := { ps.es with cache := cache1 }
                    dataNotRead := dnr
                    counters := { ps.counters with
                                  ignored_not_updated := ps.counters.ignored_not_updated + 1 } }
            else
              processMatchedRow source ps { ps.es with cache := cache1 } item false key row dnr

/-- The key → record lookup built at the start of `_parseSource`
(importtask.py:211-216) from the *current* working set, using each record's
already-staged key value if present, passed through the source's key-column
comparator. -/
def buildData (source : Source) (es : EngineState) : List (Val × Record) :=
  es.rawData.foldl (fun d x =>
    aset (source.key_comparator
      (get_updated_value_for es.updates x source.keycolumn_name)) x d) []

/-- `ImportTask._parseSource` (importtask.py:197-311): build the key lookup
and the unmatched set, run the row loop, then report every record never
matched by this source (`on_data_not_found` defaults to a no-op and is
modelled by that default; only the `not_found` count is observable). -/
def parseSource (task : Task) (source : Source) (es : EngineState) :
    Except Exc (EngineState × SourceCounters) :=
  let ps0 : ParseState :=
    { es := es, counters := {}, data := buildData source es,
      dataNotRead := es.rawData.map Record.rid }
  match source.rows.enum.foldlM (fun ps p => processRow task source ps p.1 p.2) ps0 with
  | .error e => .error e
  | .ok ps =>
    .ok (ps.es,
      { ps.counters with not_found := ps.counters.not_found + ps.dataNotRead.length })

/-! ## The apply phase (`ImportTask._apply_updates_for`, importtask.py:313-344) -/

/-- The History Companion: the `DestinationModelHistory` item produced by
`createHistoryModel`, with its per-field `old_`/`new_` pairs and the
timestamp set just before registration. -/
structure HistoryRecord where
  model_rid : Nat
  pairs : List (String × Val × Val)
  stamped : Bool := false
deriving DecidableEq

/-- Observable persistence-layer calls: `db.session.add(item)`,
`db.session.add(item_history)`, and `db.session.commit()`. -/
inductive DbEffect where
  | addItem (rid : Nat)
  | addHistory (h : HistoryRecord)
  | commit
deriving DecidableEq

/-- `createHistoryModel`, modelled as a history-supporting concrete task
(the base-class default returns `None`, i.e. unsupported, in which case the
apply loop would crash on `setattr(None, ...)`; history claims concern a
supporting task, as in the repository's test task which returns a fresh
companion remembering the base item). -/
def createHistoryModel (item : Record) : HistoryRecord :=
  { model_rid := item.rid, pairs := [] }

/-- The engine-level default `ImportTask.validate_updates`
(importtask.py:52-70): reject when any required-non-null column's effective
value resolves to `None`. -/
def task_validate_updates (task : Task) (updates : UpdatesMap) (item : Record) : Bool :=
  task.nonNullableColumns.all (fun c => get_updated_value_for updates item c != Val.none)

/-- Totals accumulated over `_apply_updates_for` calls in `_read`. -/
structure ApplyCounters where
  rejected : Nat := 0
  created : Nat := 0
  updated : Nat := 0
  history_created : Nat := 0
deriving DecidableEq

abbrev ApplyState := List Record × List DbEffect × ApplyCounters

def findRecord (records : List Record) (rid : Nat) : Option Record :=
  records.find? (fun r => r.rid == rid)

def setRecord (records : List Record) (item : Record) : List Record :=
  records.map (fun r => if r.rid = item.rid then item else r)

/-- One iteration of the per-field loop of `_apply_updates_for`
(importtask.py:326-333): when run-wide history is on and the field is
flagged, lazily create the History Companion and record the
`(old, new)` pair — the old value read by `getattr` *before* the
`setattr` that applies the staged value. -/
def applyFieldStep (task : Task) (entryHist : List String)
    (st : Record × Option HistoryRecord) (nv : String × Val) :
    Record × Option HistoryRecord :=
  let item := st.1
  let hist' :=
    if task.keep_history = true ∧ nv.1 ∈ entryHist then
      let h := st.2.getD (createHistoryModel item)
      some { h with pairs := h.pairs ++ [(nv.1, item.getF nv.1, nv.2)] }
    else st.2
  (item.setF nv.1 nv.2, hist')

/-- `ImportTask._apply_updates_for` (importtask.py:313-344) for one record
identity: skip records with no pending entry, re-validate (counting a
rejection), apply each staged field (recording history pairs for flagged
fields), then either register the record for insertion (creating) or — if
any field was applied — count an update and register the stamped History
Companion when one was created. -/
def applyUpdatesFor (task : Task) (updatesMap : UpdatesMap) (acc : ApplyState)
    (rid : Nat) : ApplyState :=
  let records := acc.1
  let effects := acc.2.1
  let cnt := acc.2.2
  match alookup rid updatesMap with
  | Option.none => acc
  | some entry =>
    match findRecord records rid with
    | Option.none => acc
    | some item =>
      if task_validate_updates task updatesMap item = false then
        (records, effects, { cnt with rejected := cnt.rejected + 1 })
      else
        let step := entry.updates.foldl (applyFieldStep task entry.hist) (item, Option.none)
        let records' := setRecord records step.1
        if entry.creating = true then
          (records', effects ++ [.addItem rid], { cnt with created := cnt.created + 1 })
        else if entry.updates = [] then
          (records', effects, cnt)
        else
          match step.2 with
          | some h =>
            (records', effects ++ [.addHistory { h with stamped := true }],
             { cnt with updated := cnt.updated + 1,
                        history_created := cnt.history_created + 1 })
          | Option.none => (records', effects, { cnt with updated := cnt.updated + 1 })

/-- The apply loop of `_read` (importtask.py:362-367), iterating the
pending records in staging order (`list(self.updates.keys())`). -/
def applyPhase (task : Task) (es : EngineState) : ApplyState :=
  (es.updates.map Prod.fst).foldl (applyUpdatesFor task es.updates) (es.rawData, [], {})

/-- The matching phase of a run: load the model data (loading assigns the
object identities 0, 1, ...), then parse every source in declared order
(importtask.py:352-358 together with `do`'s `self.rawData` load). -/
def parsePhase (task : Task) : Except Exc (EngineState × List SourceCounters) :=
  let rawData0 : List Record := task.modelData.enum.map (fun p => { rid := p.1, fields := p.2 })
  let es0 : EngineState :=
    { rawData := rawData0, nextRid := rawData0.length, updates := [], cache := [] }
  task.sources.foldlM (fun st source =>
    match parseSource task source st.1 with
    | .error e => .error e
    | .ok (es, c) => .ok (es, st.2 ++ [c])) (es0, ([] : List SourceCounters))

/-- The structured counters object returned by `do`/`_read`
(importtask.py:346-395). -/
structure RunResults where
  preprocess : List (String × Int)
  sources : List SourceCounters
  postprocess : List (String × Int)
  precommit : List (String × Int)
  postcommit : List (String × Int)
  rejected : Nat
  updated : Nat
  created : Nat
  history_created : Nat
deriving DecidableEq

/-- A whole run (`ImportTask.do` + `_read`): matching phase, hooks, apply
phase, then `self.execute(lambda: db.session.commit())` — a no-op under
dry-run.  Returns the counters object, the final working set and the
persistence-layer effects. -/
def runImport (task : Task) (dryrun : Bool) :
    Except Exc (RunResults × List Record × List DbEffect) :=
  match parsePhase task with
  | .error e => .error e
  | .ok (es1, sourceCounters) =>
    let ap := applyPhase task es1
    let effects := if dryrun then ap.2.1 else ap.2.1 ++ [DbEffect.commit]
    .ok ({ preprocess := task.pre_process, sources := sourceCounters,
           postprocess := task.post_process, precommit := task.pre_commit,
           postcommit := task.post_commit,
           rejected := ap.2.2.rejected, updated := ap.2.2.updated,
           created := ap.2.2.created, history_created := ap.2.2.history_created },
         ap.1, effects)

/-! ## Derived notions used by the specification statements -/

/-- The fields a record identity was born with: loaded records keep their
`get_model_data` field maps, records created during the run are born from
`createModel` (identities ≥ the number of loaded records). -/
def bornFields (task : Task) (rid : Nat) : FieldMap :=
  task.modelData.getD rid task.createFields

/-- A record identity's pre-run live value for a field (records are mutated
only in the apply phase, so during matching `getattr` always yields this). -/
def bornVal (task : Task) (rid : Nat) (name : String) : Val :=
  (alookup name (bornFields task rid)).getD .none

/-- Well-formedness of a pending entry as Python dict/set semantics
guarantee it: staged-field keys are unique and the history-flag set has no
duplicates. -/
def EntryWF (e : PendingEntry) : Prop :=
  (e.updates.map Prod.fst).Nodup ∧ e.hist.Nodup

/-- Column identities determine the extracted value: two columns of a
source sharing a cache identity extract the same value (true in the
Python, where the cache key is the column object itself). -/
def CidCoherent (cols : List (String × Column)) (row : List String) : Prop :=
  ∀ nc ∈ cols, ∀ nc' ∈ cols, nc.2.cid = nc'.2.cid →
    Column.pureGet nc.2 row = Column.pureGet nc'.2 row

/-- The value cache is coherent for a row: every cached value is the value
the corresponding column extracts from this row. -/
def CacheOK (cols : List (String × Column)) (row : List String) (cache : Cache) : Prop :=
  ∀ p ∈ cache, ∀ nc ∈ cols, nc.2.cid = p.1 → Column.pureGet nc.2 row = .ok p.2

/-- Everything a row-processing step observably produces apart from the
value cache. -/
def ParseState.obs (ps : ParseState) :
    (List Record × Nat × UpdatesMap) × SourceCounters × List (Val × Record) × List Nat :=
  ((ps.es.rawData, ps.es.nextRid, ps.es.updates), ps.counters, ps.data, ps.dataNotRead)

/-- Is this effect the registration of a History Companion for `rid`? -/
def isHistFor (rid : Nat) : DbEffect → Bool
  | .addHistory h => h.model_rid = rid
  | _ => false

/-- The record identity an effect concerns, if any. -/
def effRid : DbEffect → Option Nat
  | .addItem rid => some rid
  | .addHistory h => some h.model_rid
  | .commit => Option.none

/-- The reachable-state invariant of the matching phase: working-set records
still carry their born fields (matching never mutates), identities are fresh
and unique, pending entries are keyed by working-set identities with unique
staged-field keys, and every staged value is comparator-different from the
record's pre-run value for that field (`cmp` gives each field's comparator,
shared by the columns that stage it). -/
structure EngineInv (task : Task) (cmp : String → Val → Val → Bool)
    (es : EngineState) : Prop where
  raw_born : ∀ r ∈ es.rawData, r.fields = bornFields task r.rid
  raw_lt : ∀ r ∈ es.rawData, r.rid < es.nextRid
  raw_nodup : (es.rawData.map Record.rid).Nodup
  next_ge : task.modelData.length ≤ es.nextRid
  upd_keys_nodup : (es.updates.map Prod.fst).Nodup
  upd_sub : ∀ p ∈ es.updates, ∃ r ∈ es.rawData, r.rid = p.1
  entry_nodup : ∀ p ∈ es.updates, ((p.2 : PendingEntry).updates.map Prod.fst).Nodup
  staged_ne : ∀ p ∈ es.updates, ∀ q ∈ (p.2 : PendingEntry).updates,
    cmp q.1 q.2 (bornVal task p.1 q.1) = false

/-- The updates-map part of the invariant alone, relative to a set of
record identities allowed to carry pending entries (mid-row this includes a
new record not yet appended to the working set). -/
structure UpdInv (task : Task) (cmp : String → Val → Val → Bool)
    (allowed : Nat → Prop) (updates : UpdatesMap) : Prop where
  keys_nodup : (updates.map Prod.fst).Nodup
  keys_allowed : ∀ p ∈ updates, allowed p.1
  entry_nodup : ∀ p ∈ updates, ((p.2 : PendingEntry).updates.map Prod.fst).Nodup
  staged_ne : ∀ p ∈ updates, ∀ q ∈ (p.2 : PendingEntry).updates,
    cmp q.1 q.2 (bornVal task p.1 q.1) = false

/-- The matching-phase invariant for the states threaded through a source's
row loop: the engine invariant plus containment of the key lookup in the
working set. -/
structure ParseInv (task : Task) (cmp : String → Val → Val → Bool)
    (ps : ParseState) : Prop where
  einv : EngineInv task cmp ps.es
  data_sub : ∀ p ∈ ps.data, (p.2 : Record) ∈ ps.es.rawData

/-! ## Concrete configurations used to witness or refute the claims -/

/-- A user-style comparator normalising the empty string to `None` before
comparing (legitimate per the `comparator` API, "useful for types where ==
does not work"). -/
def normEmpty (v : Val) : Val := if v = Val.str "" then Val.none else v

/-- A column whose comparator identifies `""` with `None`. -/
def normCol : Column :=
  { cid := 0, column_number := 0,
    parseFn := fun s => .ok (.str s),
    comparator := fun x y => normEmpty x = normEmpty y }

/-- A plain string column. -/
def strCol (cid n : Nat) : Column :=
  { cid := cid, column_number := n, parseFn := fun s => .ok (.str s) }

def wit10updates : UpdatesMap := [(0, { updates := [("id", Val.str "X")], hist := [], creating := true })]

def wit10item : Record := { rid := 0, fields := [] }

def wit7es : EngineState := { rawData := [], nextRid := 0, updates := [], cache := [] }

def wit7col : String × Column := ("col2", { strCol 2 2 with should_update := false })

/-- A key column parsing the empty string to `None`. -/
def nullableKeyCol : Column :=
  { cid := 0, column_number := 0,
    parseFn := fun s => .ok (if s = "" then Val.none else Val.str s) }

def wit6src : Source :=
  { columns := [("id", nullableKeyCol)],
    keycolumn_name := "id", keycolumn := nullableKeyCol,
    key_comparator := fun v => v,
    header_line_number := -1 }

def wit6ps : ParseState :=
  { es := { rawData := [], nextRid := 0, updates := [], cache := [] },
    counters := {}, data := [], dataNotRead := [] }

def wit1es : EngineState :=
  { rawData := [], nextRid := 1, updates := wit10updates, cache := [] }

def wit8item : Record := { rid := 0, fields := [("col1", Val.str "B")] }

def wit8es : EngineState :=
  { rawData := [wit8item], nextRid := 1, updates := [], cache := [] }

def wit8src : Source :=
  { columns := [("col1", strCol 1 1)],
    keycolumn_name := "id", keycolumn := strCol 0 0,
    key_comparator := fun v => v }

/-- A source whose `should_import` override consults the value cache
(permitted: the hook is an arbitrary method with access to the process-wide
`_Caching` singleton): it accepts a row exactly when the cache is clear. -/
def c4src : Source :=
  { columns := [("id", strCol 5 0)],
    keycolumn_name := "id", keycolumn := strCol 5 0,
    key_comparator := fun v => v,
    header_line_number := -1,
    should_import := fun _ c => (c.isEmpty, c),
    rows := [["a"], ["b"]] }

def c4task : Task := { sources := [c4src] }

/-- A column whose user parser always raises `ValueError`. -/
def errCol : Column :=
  { cid := 3, column_number := 0, parseFn := fun _ => .error .valueError }

/-- An out-of-range positional column (`fail_on_out_of_range` left at its
default `True`). -/
def oorCol : Column := strCol 4 2

def wit3es : EngineState :=
  { rawData := [], nextRid := 0, updates := [], cache := [] }

def c3src : Source :=
  { columns := [("id", strCol 0 0), ("col1", oorCol)],
    keycolumn_name := "id", keycolumn := strCol 0 0,
    key_comparator := fun v => v,
    header_line_number := -1,
    rows := [["x"]] }

def c3task : Task := { sources := [c3src] }

def c4results : RunResults :=
  { preprocess := [],
    sources := [{ read := 1, ignored := 1, ignored_missing_id := 0,
                  ignored_not_created := 0, ignored_not_updated := 0,
                  rejected := 0, not_found := 0 }],
    postprocess := [], precommit := [], postcommit := [],
    rejected := 0, updated := 0, created := 1, history_created := 0 }

/-- A column identifying `""` with `None` via its comparator, used both as
key column (under a constant key comparator, a legitimate normalisation) and
as data column of the C9 refutation source. -/
def c9col : Column :=
  { cid := 9, column_number := 0,
    parseFn := fun s => Except.ok (Val.str s),
    comparator := fun x y => normEmpty x = normEmpty y }

/-- Two rows mapping to the same key: the first creates a record staging
`col1 := "A"`, the second restages `""`, which the comparator cancels
against the created record's (null) live value — emptying, and thereby
deleting, the pending entry together with its creating flag. -/
def c9src : Source :=
  { columns := [("col1", c9col)],
    keycolumn_name := "col1", keycolumn := c9col,
    key_comparator := fun _ => Val.str "k",
    header_line_number := -1,
    rows := [["A"], [""]] }

def c9task : Task := { sources := [c9src] }

def c9results : RunResults :=
  { preprocess := [],
    sources := [{ read := 2, ignored := 0, ignored_missing_id := 0,
                  ignored_not_created := 0, ignored_not_updated := 0,
                  rejected := 0, not_found := 0 }],
    postprocess := [], precommit := [], postcommit := [],
    rejected := 0, updated := 0, created := 0, history_created := 0 }

/-- A single-row creating source used to witness the amended C9. -/
def c9wsrc : Source :=
  { columns := [("id", strCol 6 0)],
    keycolumn_name := "id", keycolumn := strCol 6 0,
    key_comparator := fun v => v,
    header_line_number := -1,
    rows := [["A"]] }

def c9wtask : Task := { sources := [c9wsrc] }

def c9wentry : PendingEntry :=
  { updates := [("id", Val.str "A")], hist := [], creating := true }

def c9wes : EngineState :=
  { rawData := [{ rid := 0, fields := [] }],
    nextRid := 1,
    updates := [(0, c9wentry)],
    cache := [(6, Val.str "A")] }

def c9wcnt : SourceCounters :=
  { read := 1, ignored := 0, ignored_missing_id := 0, ignored_not_created := 0,
    ignored_not_updated := 0, rejected := 0, not_found := 0 }

/-- A history-flagged updating column for the C2 witness. -/
def histCol : Column := { strCol 8 1 with keep_history := true }

/-- One row updating the loaded record's `col1` from `"X"` to `"Y"`. -/
def c2wsrc : Source :=
  { columns := [("id", strCol 7 0), ("col1", histCol)],
    keycolumn_name := "id", keycolumn := strCol 7 0,
    key_comparator := fun v => v,
    header_line_number := -1,
    rows := [["A", "Y"]] }

def c2wtask : Task :=
  { keep_history := true,
    modelData := [[("id", Val.str "A"), ("col1", Val.str "X")]],
    sources := [c2wsrc] }

def c2wes : EngineState :=
  { rawData := [{ rid := 0, fields := [("id", Val.str "A"), ("col1", Val.str "X")] }],
    nextRid := 1,
    updates := [(0, { updates := [("col1", Val.str "Y")], hist := ["col1"],
                      creating := false })],
    cache := [(7, Val.str "A"), (8, Val.str "Y")] }

def c2wcnt : SourceCounters :=
  { read := 1, ignored := 0, ignored_missing_id := 0, ignored_not_created := 0,
    ignored_not_updated := 0, rejected := 0, not_found := 0 }

/-! ## Lemmas about the association-list model of Python dicts -/

section AListLemmas

variable {κ : Type} {ν : Type} [DecidableEq κ]

@[simp] theorem alookup_nil (k : κ) : alookup k ([] : List (κ × ν)) = Option.none := rfl

@[simp] theorem alookup_cons (k k' : κ) (v : ν) (l : List (κ × ν)) :
    alookup k ((k', v) :: l) = if k' = k then some v else alookup k l := rfl

theorem alookup_eq_none_of_not_mem_keys (k : κ) (l : List (κ × ν))
    (h : k ∉ l.map Prod.fst) : alookup k l = Option.none := by
  induction l with
  | nil => rfl
  | cons q rest ih =>
    obtain ⟨qk, qv⟩ := q
    simp only [List.map_cons, List.mem_cons] at h
    push_neg at h
    have hq : qk ≠ k := fun hh => h.1 hh.symm
    simp [hq, ih h.2]

@[simp] theorem alookup_aset_self (k : κ) (v : ν) (l : List (κ × ν)) :
    alookup k (aset k v l) = some v := by
  induction l with
  | nil => simp [aset]
  | cons p rest ih =>
    obtain ⟨pk, pv⟩ := p
    by_cases h : pk = k
    · simp [aset, h]
    · simp [aset, h, ih]

theorem alookup_aset_ne (k k' : κ) (v : ν) (l : List (κ × ν)) (h : k' ≠ k) :
    alookup k (aset k' v l) = alookup k l := by
  induction l with
  | nil => simp [aset, h]
  | cons p rest ih =>
    obtain ⟨pk, pv⟩ := p
    by_cases hp : pk = k'
    · subst hp
      simp [aset, h]
    · simp [aset, hp, ih]

theorem alookup_aerase_self (k : κ) (l : List (κ × ν))
    (hnd : (l.map Prod.fst).Nodup) : alookup k (aerase k l) = Option.none := by
  induction l with
  | nil => simp [aerase]
  | cons p rest ih =>
    obtain ⟨pk, pv⟩ := p
    simp only [List.map_cons, List.nodup_cons] at hnd
    by_cases hp : pk = k
    · subst hp
      simp only [aerase, if_pos rfl]
      apply alookup_eq_none_of_not_mem_keys
      exact hnd.1
    · simp only [aerase, if_neg hp, alookup_cons, if_neg hp]
      exact ih hnd.2

theorem alookup_aerase_ne (k k' : κ) (l : List (κ × ν)) (h : k' ≠ k) :
    alookup k (aerase k' l) = alookup k l := by
  induction l with
  | nil => simp [aerase]
  | cons p rest ih =>
    obtain ⟨pk, pv⟩ := p
    by_cases hp : pk = k'
    · subst hp
      have hk : ¬ pk = k := fun hh => h hh
      simp [aerase, hk]
    · simp only [aerase, if_neg hp, alookup_cons]
      by_cases hk : pk = k
      · simp [hk]
      · simp [hk, ih]

theorem mem_aset (k : κ) (v : ν) (l : List (κ × ν)) (p : κ × ν)
    (hp : p ∈ aset k v l) : p = (k, v) ∨ p ∈ l := by
  induction l with
  | nil => simp [aset] at hp; left; exact hp
  | cons q rest ih =>
    obtain ⟨qk, qv⟩ := q
    by_cases hq : qk = k
    · simp only [aset, if_pos hq, List.mem_cons] at hp
      rcases hp with h | h
      · left; exact h
      · right; exact List.mem_cons_of_mem _ h
    · simp only [aset, if_neg hq, List.mem_cons] at hp
      rcases hp with h | h
      · right; exact h ▸ List.mem_cons_self _ rest
      · rcases ih h with h' | h'
        · left; exact h'
        · right; exact List.mem_cons_of_mem _ h'

theorem mem_aerase (k : κ) (l : List (κ × ν)) (p : κ × ν)
    (hp : p ∈ aerase k l) : p ∈ l := by
  induction l with
  | nil => simp [aerase] at hp
  | cons q rest ih =>
    obtain ⟨qk, qv⟩ := q
    by_cases hq : qk = k
    · simp only [aerase, if_pos hq] at hp
      exact List.mem_cons_of_mem _ hp
    · simp only [aerase, if_neg hq, List.mem_cons] at hp
      rcases hp with h | h
      · exact h ▸ List.mem_cons_self _ rest
      · exact List.mem_cons_of_mem _ (ih h)

theorem keys_aset (k : κ) (v : ν) (l : List (κ × ν)) :
    (aset k v l).map Prod.fst = if k ∈ l.map Prod.fst then l.map Prod.fst
      else l.map Prod.fst ++ [k] := by
  induction l with
  | nil => simp [aset]
  | cons q rest ih =>
    obtain ⟨qk, qv⟩ := q
    by_cases hq : qk = k
    · simp [aset, hq]
    · have hkq : ¬ k = qk := fun h => hq h.symm
      simp only [aset, if_neg hq, List.map_cons, List.mem_cons, hkq, false_or, ih]
      by_cases hk : k ∈ rest.map Prod.fst <;> simp [hk]

theorem keys_aset_nodup (k : κ) (v : ν) (l : List (κ × ν))
    (h : (l.map Prod.fst).Nodup) : ((aset k v l).map Prod.fst).Nodup := by
  rw [keys_aset]
  by_cases hk : k ∈ l.map Prod.fst
  · simpa [hk]
  · simp only [hk, if_neg, ite_false]
    exact List.Nodup.append h (List.nodup_singleton k)
      (by simpa [List.disjoint_singleton] using hk)

theorem keys_aerase_sublist (k : κ) (l : List (κ × ν)) :
    ((aerase k l).map Prod.fst).Sublist (l.map Prod.fst) := by
  induction l with
  | nil => simp [aerase]
  | cons q rest ih =>
    obtain ⟨qk, qv⟩ := q
    by_cases hq : qk = k
    · simp only [aerase, if_pos hq, List.map_cons]
      exact (List.Sublist.refl _).cons _
    · simp only [aerase, if_neg hq, List.map_cons]
      exact List.Sublist.cons₂ _ ih

theorem keys_aerase_nodup (k : κ) (l : List (κ × ν))
    (h : (l.map Prod.fst).Nodup) : ((aerase k l).map Prod.fst).Nodup :=
  (keys_aerase_sublist k l).nodup h

theorem alookup_mem (k : κ) (l : List (κ × ν)) (v : ν)
    (h : alookup k l = some v) : (k, v) ∈ l := by
  induction l with
  | nil => simp [alookup] at h
  | cons q rest ih =>
    obtain ⟨qk, qv⟩ := q
    by_cases hq : qk = k
    · simp only [alookup_cons, if_pos hq] at h
      subst hq
      cases h
      exact List.mem_cons_self _ _
    · simp only [alookup_cons, if_neg hq] at h
      exact List.mem_cons_of_mem _ (ih h)


end AListLemmas

/-! ## Basic lemmas about records, extraction and the staging primitives -/

theorem Record.getF_setF_self (r : Record) (name : String) (v : Val) :
    (r.setF name v).getF name = v := by
  simp [Record.getF, Record.setF]

theorem Record.getF_setF_ne (r : Record) (name name' : String) (v : Val)
    (h : name ≠ name') : (r.setF name v).getF name' = r.getF name' := by
  simp [Record.getF, Record.setF, alookup_aset_ne _ _ _ _ h]

theorem Record.rid_setF (r : Record) (name : String) (v : Val) :
    (r.setF name v).rid = r.rid := rfl

theorem getF_eq_bornVal (task : Task) (r : Record) (name : String)
    (h : r.fields = bornFields task r.rid) : r.getF name = bornVal task r.rid name := by
  simp [Record.getF, bornVal, h]

theorem get_raw_values_error (c : Column) (row : List String) (e : Exc)
    (h : c.get_raw_values row = .error e) : e = .indexError := by
  unfold Column.get_raw_values at h
  split at h <;> split at h <;> simp_all

theorem get_updated_value_for_of_no_entry (updates : UpdatesMap) (item : Record)
    (name : String) (h : alookup item.rid updates = Option.none) :
    get_updated_value_for updates item name = item.getF name := by
  unfold get_updated_value_for
  rw [h]

theorem get_updated_value_for_of_not_staged (updates : UpdatesMap) (item : Record)
    (name : String) (e : PendingEntry) (h1 : alookup item.rid updates = some e)
    (h2 : alookup name e.updates = Option.none) :
    get_updated_value_for updates item name = item.getF name := by
  simp only [get_updated_value_for, h1, h2]

theorem get_updated_value_for_of_staged (updates : UpdatesMap) (item : Record)
    (name : String) (e : PendingEntry) (v : Val)
    (h1 : alookup item.rid updates = some e) (h2 : alookup name e.updates = some v) :
    get_updated_value_for updates item name = v := by
  simp only [get_updated_value_for, h1, h2]

theorem Column.get_error (c : Column) (row : List String) (cache : Cache)
    (e : Exc) (cache₂ : Cache) (h : c.get row cache = (.error e, cache₂)) :
    cache₂ = cache ∧ c.pureGet row = .error e := by
  unfold Column.get at h
  cases halo : alookup c.cid cache with
  | some v => rw [halo] at h; simp at h
  | none =>
    rw [halo] at h
    cases hp : c.pureGet row with
    | error e' =>
      rw [hp] at h
      simp only [Prod.mk.injEq, Except.error.injEq] at h
      exact ⟨h.2.symm, by simp [h.1]⟩
    | ok v => rw [hp] at h; simp at h

theorem pureGet_data_error_raw_ok (c : Column) (row : List String) (e : Exc)
    (h : c.pureGet row = .error e) (hd : e.isData = true) :
    ∃ l, c.get_raw_values row = .ok l := by
  unfold Column.pureGet at h
  cases hr : c.get_raw_values row with
  | error e2 =>
    rw [hr] at h
    simp only [Except.error.injEq] at h
    subst h
    rw [get_raw_values_error c row _ hr] at hd
    simp [Exc.isData] at hd
  | ok l => exact ⟨l, rfl⟩

/-- Shared skeleton of C1/C10: if the parsed value differs from the
effective value but agrees with the live value under the same (functional)
comparator, then the record must have a staged entry for this field —
otherwise the two compared values coincide. -/
theorem staged_entry_of_comparator_branch (updates : UpdatesMap) (item : Record)
    (name : String) (cmp2 : Val → Val → Bool) (new_value : Val)
    (hne : cmp2 new_value (get_updated_value_for updates item name) = false)
    (heq : cmp2 new_value (item.getF name) = true) :
    ∃ e, alookup item.rid updates = some e ∧ ∃ v, alookup name e.updates = some v := by
  cases h1 : alookup item.rid updates with
  | none =>
    rw [get_updated_value_for_of_no_entry updates item name h1, heq] at hne
    cases hne
  | some e =>
    cases h2 : alookup name e.updates with
    | none =>
      rw [get_updated_value_for_of_not_staged updates item name e h1 h2, heq] at hne
      cases hne
    | some v => exact ⟨e, rfl, v, h2⟩

theorem cancel_ok_of_staged (updates : UpdatesMap) (rid : Nat) (name : String)
    (e : PendingEntry) (v : Val)
    (h1 : alookup rid updates = some e) (h2 : alookup name e.updates = some v) :
    cancel_updated_value_for updates rid name =
      .ok (if aerase name e.updates = [] then aerase rid updates
           else aset rid { e with updates := aerase name e.updates,
                                  hist := e.hist.erase name } updates) := by
  simp only [cancel_updated_value_for, h1, h2]
  split <;> rfl

theorem mem_sadd (x y : String) (l : List String) :
    y ∈ sadd x l ↔ y = x ∨ y ∈ l := by
  unfold sadd
  split
  · constructor
    · exact Or.inr
    · rintro (rfl | h)
      · assumption
      · assumption
  · simp [or_comm]

theorem sadd_nodup (x : String) (l : List String) (h : l.Nodup) :
    (sadd x l).Nodup := by
  unfold sadd
  split
  · exact h
  · exact List.Nodup.append h (List.nodup_singleton x)
      (by simpa [List.disjoint_singleton] using (by assumption : ¬ x ∈ l))

/-- What `set_updated_value_for` guarantees about the written entry: the
value is staged, an existing entry's creating flag is untouched, and the
field is history-flagged exactly when this staging asks for it or it was
already flagged. -/
theorem set_updated_value_for_lookup (updates : UpdatesMap) (rid : Nat)
    (name : String) (v : Val) (kh : Bool) :
    ∃ e', alookup rid (set_updated_value_for updates rid name v kh) = some e' ∧
      alookup name e'.updates = some v ∧
      (∀ e, alookup rid updates = some e → e'.creating = e.creating) ∧
      (name ∈ e'.hist ↔ (kh = true ∨ ∃ e, alookup rid updates = some e ∧ name ∈ e.hist)) := by
  unfold set_updated_value_for
  cases h : alookup rid updates with
  | none =>
    refine ⟨_, alookup_aset_self _ _ _, by simp [alookup], ?_, ?_⟩
    · intro e he
      cases he
    · cases kh <;> simp
  | some e =>
    refine ⟨_, alookup_aset_self _ _ _, alookup_aset_self _ _ _, ?_, ?_⟩
    · intro e2 he2
      cases he2
      rfl
    · cases kh
      · simp
      · simp [mem_sadd]

/-! ## Matching-phase invariant machinery -/

theorem mem_aerase_ne_key {κ ν : Type} [DecidableEq κ] (k : κ) (l : List (κ × ν))
    (hnd : (l.map Prod.fst).Nodup) (p : κ × ν) (hp : p ∈ aerase k l) : p.1 ≠ k := by
  induction l with
  | nil => simp [aerase] at hp
  | cons q rest ih =>
    obtain ⟨qk, qv⟩ := q
    simp only [List.map_cons, List.nodup_cons] at hnd
    by_cases hq : qk = k
    · subst hq
      simp only [aerase, if_pos rfl] at hp
      intro hpk
      exact hnd.1 (by
        rw [← hpk]
        exact List.mem_map.mpr ⟨p, hp, rfl⟩)
    · simp only [aerase, if_neg hq, List.mem_cons] at hp
      rcases hp with rfl | hp
      · exact hq
      · exact ih hnd.2 hp

theorem findRecord_some_rid (records : List Record) (rid : Nat) (r : Record)
    (h : findRecord records rid = some r) : r.rid = rid := by
  have := List.find?_some h
  simpa using this

theorem findRecord_setRecord_ne (records : List Record) (item : Record) (rid : Nat)
    (h : rid ≠ item.rid) :
    findRecord (setRecord records item) rid = findRecord records rid := by
  induction records with
  | nil => rfl
  | cons r rest ih =>
    unfold setRecord findRecord at *
    by_cases hr : r.rid = item.rid
    · have h1 : (item.rid == rid) = false :=
        beq_eq_false_iff_ne.mpr (fun hc => h hc.symm)
      have h2 : (r.rid == rid) = false :=
        beq_eq_false_iff_ne.mpr (fun hc => h (by rw [← hc]; exact hr))
      simp [List.find?_cons, hr, h1, h2, ih]
    · by_cases hx : (r.rid == rid) = true
      · simp [List.find?_cons, hr, hx]
      · simp [List.find?_cons, hr, hx, ih]

theorem bornFields_of_ge (task : Task) (rid : Nat)
    (h : task.modelData.length ≤ rid) : bornFields task rid = task.createFields := by
  unfold bornFields
  simp [List.getD, List.getElem?_eq_none h]

theorem loaded_record_born (task : Task) (r : Record)
    (h : r ∈ task.modelData.enum.map (fun p => ({ rid := p.1, fields := p.2 } : Record))) :
    r.fields = bornFields task r.rid ∧ r.rid < task.modelData.length := by
  obtain ⟨p, hp, hr⟩ := List.mem_map.mp h
  subst hr
  have hg := List.mem_enum_iff_getElem?.mp hp
  constructor
  · unfold bornFields
    simp [List.getD, hg]
  · exact (List.getElem?_eq_some.mp hg).1

theorem loaded_records_nodup (task : Task) :
    ((task.modelData.enum.map
        (fun p => ({ rid := p.1, fields := p.2 } : Record))).map Record.rid).Nodup := by
  rw [List.map_map]
  have : (Record.rid ∘ fun p : Nat × FieldMap =>
      ({ rid := p.1, fields := p.2 } : Record)) = Prod.fst := rfl
  rw [this, List.enum_map_fst]
  exact List.nodup_range _

/-- Cancellation preserves the updates-map invariant. -/
theorem cancel_updates_inv (task : Task) (cmp : String → Val → Val → Bool)
    (allowed : Nat → Prop) (updates : UpdatesMap) (rid : Nat) (name : String)
    (u : UpdatesMap) (hinv : UpdInv task cmp allowed updates)
    (h : cancel_updated_value_for updates rid name = .ok u) :
    UpdInv task cmp allowed u := by
  cases h1 : alookup rid updates with
  | none => simp [cancel_updated_value_for, h1] at h
  | some e =>
    cases h2 : alookup name e.updates with
    | none => simp [cancel_updated_value_for, h1, h2] at h
    | some v =>
      have hmem : (rid, e) ∈ updates := alookup_mem _ _ _ h1
      simp only [cancel_updated_value_for, h1, h2] at h
      split at h
      · injection h with h
        subst h
        exact ⟨keys_aerase_nodup _ _ hinv.keys_nodup,
          fun p hp => hinv.keys_allowed p (mem_aerase _ _ _ hp),
          fun p hp => hinv.entry_nodup p (mem_aerase _ _ _ hp),
          fun p hp => hinv.staged_ne p (mem_aerase _ _ _ hp)⟩
      · injection h with h
        subst h
        refine ⟨keys_aset_nodup _ _ _ hinv.keys_nodup, ?_, ?_, ?_⟩
        · intro p hp
          rcases mem_aset _ _ _ _ hp with rfl | hp'
          · exact hinv.keys_allowed (rid, e) hmem
          · exact hinv.keys_allowed p hp'
        · intro p hp
          rcases mem_aset _ _ _ _ hp with rfl | hp'
          · exact keys_aerase_nodup _ _ (hinv.entry_nodup (rid, e) hmem)
          · exact hinv.entry_nodup p hp'
        · intro p hp q hq
          rcases mem_aset _ _ _ _ hp with rfl | hp'
          · exact hinv.staged_ne (rid, e) hmem q (mem_aerase _ _ _ hq)
          · exact hinv.staged_ne p hp' q hq

/-- Staging preserves the updates-map invariant, provided the staged value
is comparator-different from the record's born value. -/
theorem set_updates_inv (task : Task) (cmp : String → Val → Val → Bool)
    (allowed : Nat → Prop) (updates : UpdatesMap) (rid : Nat) (name : String)
    (v : Val) (kh : Bool) (hinv : UpdInv task cmp allowed updates)
    (hall : allowed rid)
    (hne : cmp name v (bornVal task rid name) = false) :
    UpdInv task cmp allowed (set_updated_value_for updates rid name v kh) := by
  unfold set_updated_value_for
  cases h1 : alookup rid updates with
  | none =>
    refine ⟨keys_aset_nodup _ _ _ hinv.keys_nodup, ?_, ?_, ?_⟩
    · intro p hp
      rcases mem_aset _ _ _ _ hp with rfl | hp'
      · exact hall
      · exact hinv.keys_allowed p hp'
    · intro p hp
      rcases mem_aset _ _ _ _ hp with rfl | hp'
      · simp
      · exact hinv.entry_nodup p hp'
    · intro p hp q hq
      rcases mem_aset _ _ _ _ hp with rfl | hp'
      · simp only [List.mem_singleton] at hq
        subst hq
        exact hne
      · exact hinv.staged_ne p hp' q hq
  | some e =>
    have hmem : (rid, e) ∈ updates := alookup_mem _ _ _ h1
    refine ⟨keys_aset_nodup _ _ _ hinv.keys_nodup, ?_, ?_, ?_⟩
    · intro p hp
      rcases mem_aset _ _ _ _ hp with rfl | hp'
      · exact hall
      · exact hinv.keys_allowed p hp'
    · intro p hp
      rcases mem_aset _ _ _ _ hp with rfl | hp'
      · exact keys_aset_nodup _ _ _ (hinv.entry_nodup (rid, e) hmem)
      · exact hinv.entry_nodup p hp'
    · intro p hp q hq
      rcases mem_aset _ _ _ _ hp with rfl | hp'
      · rcases mem_aset _ _ _ _ hq with rfl | hq'
        · exact hne
        · exact hinv.staged_ne (rid, e) hmem q hq'
      · exact hinv.staged_ne p hp' q hq

/-- The column-loop step preserves the updates-map invariant and touches
neither the working set nor the identity counter. -/
theorem processColumn_inv (task : Task) (cmp : String → Val → Val → Bool)
    (allowed : Nat → Prop) (es : EngineState) (item : Record) (creating : Bool)
    (row : List String) (nc : String × Column) (es' : EngineState)
    (hall : allowed item.rid)
    (hcmp : ∀ v w, nc.2.comparator v w = false → cmp nc.1 v w = false)
    (hborn : item.fields = bornFields task item.rid)
    (hinv : UpdInv task cmp allowed es.updates)
    (h : processColumn es item creating row nc = .ok es') :
    UpdInv task cmp allowed es'.updates ∧ es'.rawData = es.rawData ∧
    es'.nextRid = es.nextRid := by
  simp only [processColumn] at h
  split at h
  · injection h with h
    subst h
    exact ⟨hinv, rfl, rfl⟩
  · split at h
    · injection h with h
      subst h
      exact ⟨hinv, rfl, rfl⟩
    · split at h
      · -- extraction succeeded
        rename_i new_value cache' hget
        split at h
        · injection h with h
          subst h
          exact ⟨hinv, rfl, rfl⟩
        · split at h
          · -- cancellation arm
            split at h
            · rename_i u hcancel
              injection h with h
              subst h
              exact ⟨cancel_updates_inv task cmp allowed es.updates item.rid nc.1 u
                hinv hcancel, rfl, rfl⟩
            · -- the del raised; only the data-shaped path returns ok
              split at h
              · split at h
                · split at h
                  · injection h with h
                    subst h
                    exact ⟨hinv, rfl, rfl⟩
                  · cases h
                · injection h with h
                  subst h
                  exact ⟨hinv, rfl, rfl⟩
              · cases h
          · -- staging arm
            rename_i hne2
            injection h with h
            subst h
            refine ⟨set_updates_inv task cmp allowed es.updates item.rid nc.1 new_value
              (!creating && nc.2.keep_history) hinv hall ?_, rfl, rfl⟩
            refine hcmp new_value (bornVal task item.rid nc.1) ?_
            rw [← getF_eq_bornVal task item nc.1 hborn]
            cases hb : nc.2.comparator new_value (item.getF nc.1) with
            | true => exact absurd hb hne2
            | false => rfl
      · -- extraction raised
        split at h
        · split at h
          · split at h
            · injection h with h
              subst h
              exact ⟨hinv, rfl, rfl⟩
            · cases h
          · injection h with h
            subst h
            exact ⟨hinv, rfl, rfl⟩
        · cases h

/-- The whole column loop preserves the updates-map invariant. -/
theorem processColumns_inv (task : Task) (cmp : String → Val → Val → Bool)
    (allowed : Nat → Prop) (source : Source) (item : Record) (creating : Bool)
    (row : List String)
    (hall : allowed item.rid)
    (hcmps : ∀ nc ∈ source.columns, ∀ v w,
      nc.2.comparator v w = false → cmp nc.1 v w = false)
    (hborn : item.fields = bornFields task item.rid) :
    ∀ (cols : List (String × Column)), (∀ nc ∈ cols, nc ∈ source.columns) →
    ∀ (es es' : EngineState), UpdInv task cmp allowed es.updates →
    (cols.foldlM (fun es nc => processColumn es item creating row nc) es = .ok es') →
    UpdInv task cmp allowed es'.updates ∧ es'.rawData = es.rawData ∧
      es'.nextRid = es.nextRid := by
  intro cols
  induction cols with
  | nil =>
    intro _ es es' hinv h
    rw [List.foldlM_nil] at h
    injection h with h
    subst h
    exact ⟨hinv, rfl, rfl⟩
  | cons nc rest ih =>
    intro hsub es es' hinv h
    rw [List.foldlM_cons] at h
    cases hx : processColumn es item creating row nc with
    | error e =>
      rw [hx] at h
      cases h
    | ok es1 =>
      rw [hx] at h
      obtain ⟨hinv1, hraw1, hnext1⟩ := processColumn_inv task cmp allowed es item
        creating row nc es1 hall (hcmps nc (hsub nc (List.mem_cons_self _ _))) hborn hinv hx
      obtain ⟨hinv2, hraw2, hnext2⟩ := ih
        (fun x hx2 => hsub x (List.mem_cons_of_mem _ hx2)) es1 es' hinv1 h
      exact ⟨hinv2, hraw2.trans hraw1, hnext2.trans hnext1⟩

/-- The shared row tail preserves the matching-phase invariant. -/
theorem processMatchedRow_inv (task : Task) (cmp : String → Val → Val → Bool)
    (source : Source) (ps : ParseState) (es0 : EngineState) (item : Record)
    (creating : Bool) (key : Val) (row : List String) (dnr : List Nat)
    (ps' : ParseState)
    (hcmps : ∀ nc ∈ source.columns, ∀ v w,
      nc.2.comparator v w = false → cmp nc.1 v w = false)
    (hborn0 : ∀ r ∈ es0.rawData, r.fields = bornFields task r.rid)
    (hlt0 : ∀ r ∈ es0.rawData, r.rid < es0.nextRid)
    (hnodup0 : (es0.rawData.map Record.rid).Nodup)
    (hge0 : task.modelData.length ≤ es0.nextRid)
    (hdata0 : ∀ p ∈ ps.data, (p.2 : Record) ∈ es0.rawData)
    (hitem_born : item.fields = bornFields task item.rid)
    (hitem_lt : item.rid < es0.nextRid)
    (hitem_fresh : creating = true → ∀ r ∈ es0.rawData, r.rid ≠ item.rid)
    (hitem_in : creating = false → item ∈ es0.rawData)
    (hupd0 : UpdInv task cmp
      (fun rid => (∃ r ∈ es0.rawData, r.rid = rid) ∨ rid = item.rid) es0.updates)
    (h : processMatchedRow source ps es0 item creating key row dnr = .ok ps') :
    ParseInv task cmp ps' := by
  simp only [processMatchedRow] at h
  split at h
  · cases h
  · rename_i es1 hfold
    obtain ⟨hinv1, hraw1, hnext1⟩ := processColumns_inv task cmp
      (fun rid => (∃ r ∈ es0.rawData, r.rid = rid) ∨ rid = item.rid) source item
      creating row (Or.inr rfl) hcmps hitem_born source.columns (fun _ hx => hx)
      es0 es1 hupd0 hfold
    split at h
    · -- rejected: the whole pending entry for `item` is dropped
      injection h with h
      subst h
      refine ⟨⟨?_, ?_, ?_, ?_, ?_, ?_, ?_, ?_⟩, ?_⟩
      · intro r hr
        exact hborn0 r (hraw1 ▸ hr)
      · intro r hr
        rw [hnext1]
        exact hlt0 r (hraw1 ▸ hr)
      · rw [hraw1]
        exact hnodup0
      · rw [hnext1]
        exact hge0
      · exact keys_aerase_nodup _ _ hinv1.keys_nodup
      · intro p hp
        have hkey := mem_aerase_ne_key item.rid es1.updates hinv1.keys_nodup p hp
        rcases hinv1.keys_allowed p (mem_aerase _ _ _ hp) with ⟨r, hr, hrid⟩ | hrid
        · exact ⟨r, hraw1 ▸ hr, hrid⟩
        · exact absurd hrid hkey
      · intro p hp
        exact hinv1.entry_nodup p (mem_aerase _ _ _ hp)
      · intro p hp q hq
        exact hinv1.staged_ne p (mem_aerase _ _ _ hp) q hq
      · intro p hp
        exact hraw1 ▸ hdata0 p hp
    · split at h
      · -- newly created record appended to the working set and key lookup
        rename_i hcr
        injection h with h
        subst h
        have hfresh := hitem_fresh hcr
        refine ⟨⟨?_, ?_, ?_, ?_, ?_, ?_, ?_, ?_⟩, ?_⟩
        · intro r hr
          rcases (by simpa using hr : r ∈ es1.rawData ∨ r = item) with hr' | rfl
          · exact hborn0 r (hraw1 ▸ hr')
          · exact hitem_born
        · intro r hr
          rw [hnext1]
          rcases (by simpa using hr : r ∈ es1.rawData ∨ r = item) with hr' | rfl
          · exact hlt0 r (hraw1 ▸ hr')
          · exact hitem_lt
        · simp only [List.map_append, List.map_cons, List.map_nil]
          rw [hraw1]
          refine List.Nodup.append hnodup0 (List.nodup_singleton _) ?_
          intro a ha hb
          rw [List.mem_singleton.mp hb] at ha
          obtain ⟨r, hr, hrid⟩ := List.mem_map.mp ha
          exact hfresh r hr hrid
        · rw [hnext1]
          exact hge0
        · exact hinv1.keys_nodup
        · intro p hp
          rcases hinv1.keys_allowed p hp with ⟨r, hr, hrid⟩ | hrid
          · exact ⟨r, by simp [hraw1 ▸ hr], hrid⟩
          · exact ⟨item, by simp, hrid.symm⟩
        · exact hinv1.entry_nodup
        · exact hinv1.staged_ne
        · intro p hp
          by_cases hk : key = Val.none
          · rw [if_pos hk] at hp
            exact List.mem_append.mpr (Or.inl (hraw1 ▸ hdata0 p hp))
          · rw [if_neg hk] at hp
            rcases mem_aset _ _ _ _ hp with rfl | hp'
            · simp
            · exact List.mem_append.mpr (Or.inl (hraw1 ▸ hdata0 p hp'))
      · -- existing record, nothing appended
        rename_i hcr
        injection h with h
        subst h
        have hin : item ∈ es0.rawData := hitem_in (by
          cases creating with
          | true => exact absurd rfl hcr
          | false => rfl)
        refine ⟨⟨?_, ?_, ?_, ?_, ?_, ?_, ?_, ?_⟩, ?_⟩
        · intro r hr
          exact hborn0 r (hraw1 ▸ hr)
        · intro r hr
          rw [hnext1]
          exact hlt0 r (hraw1 ▸ hr)
        · rw [hraw1]
          exact hnodup0
        · rw [hnext1]
          exact hge0
        · exact hinv1.keys_nodup
        · intro p hp
          rcases hinv1.keys_allowed p hp with ⟨r, hr, hrid⟩ | hrid
          · exact ⟨r, hraw1 ▸ hr, hrid⟩
          · exact ⟨item, hraw1 ▸ hin, hrid.symm⟩
        · exact hinv1.entry_nodup
        · exact hinv1.staged_ne
        · intro p hp
          exact hraw1 ▸ hdata0 p hp

/-- Each row-loop iteration preserves the matching-phase invariant. -/
theorem processRow_inv (task : Task) (cmp : String → Val → Val → Bool)
    (source : Source) (ps : ParseState) (line_idx : Nat) (row : List String)
    (ps' : ParseState)
    (hcmps : ∀ nc ∈ source.columns, ∀ v w,
      nc.2.comparator v w = false → cmp nc.1 v w = false)
    (hinv : ParseInv task cmp ps)
    (h : processRow task source ps line_idx row = .ok ps') :
    ParseInv task cmp ps' := by
  simp only [processRow] at h
  split at h
  · injection h with h
    subst h
    exact hinv
  · split at h
    · injection h with h
      subst h
      exact ⟨⟨hinv.einv.raw_born, hinv.einv.raw_lt, hinv.einv.raw_nodup,
        hinv.einv.next_ge, hinv.einv.upd_keys_nodup, hinv.einv.upd_sub,
        hinv.einv.entry_nodup, hinv.einv.staged_ne⟩, hinv.data_sub⟩
    · split at h
      · cases h
      · rename_i key cache1 hkey
        split at h
        · injection h with h
          subst h
          exact ⟨⟨hinv.einv.raw_born, hinv.einv.raw_lt, hinv.einv.raw_nodup,
            hinv.einv.next_ge, hinv.einv.upd_keys_nodup, hinv.einv.upd_sub,
            hinv.einv.entry_nodup, hinv.einv.staged_ne⟩, hinv.data_sub⟩
        · split at h
          · -- key not found: create or skip
            split at h
            · injection h with h
              subst h
              exact ⟨⟨hinv.einv.raw_born, hinv.einv.raw_lt, hinv.einv.raw_nodup,
                hinv.einv.next_ge, hinv.einv.upd_keys_nodup, hinv.einv.upd_sub,
                hinv.einv.entry_nodup, hinv.einv.staged_ne⟩, hinv.data_sub⟩
            · refine processMatchedRow_inv task cmp source ps
                { ps.es with
                  cache := cache1
                  nextRid := ps.es.nextRid + 1
                  updates := aset ps.es.nextRid ⟨[], [], true⟩ ps.es.updates }
                { rid := ps.es.nextRid, fields := task.createFields }
                true key row ps.dataNotRead ps' hcmps hinv.einv.raw_born
                (fun r hr => Nat.lt_succ_of_lt (hinv.einv.raw_lt r hr))
                hinv.einv.raw_nodup (Nat.le_succ_of_le hinv.einv.next_ge)
                hinv.data_sub
                (by
                  show task.createFields = bornFields task ps.es.nextRid
                  exact (bornFields_of_ge task ps.es.nextRid hinv.einv.next_ge).symm)
                (Nat.lt_succ_self _)
                (fun _ r hr => Nat.ne_of_lt (hinv.einv.raw_lt r hr))
                (fun hc => nomatch hc)
                ?_ h
              refine ⟨keys_aset_nodup _ _ _ hinv.einv.upd_keys_nodup, ?_, ?_, ?_⟩
              · intro p hp
                rcases mem_aset _ _ _ _ hp with rfl | hp'
                · exact Or.inr rfl
                · exact Or.inl (hinv.einv.upd_sub p hp')
              · intro p hp
                rcases mem_aset _ _ _ _ hp with rfl | hp'
                · simp
                · exact hinv.einv.entry_nodup p hp'
              · intro p hp q hq
                rcases mem_aset _ _ _ _ hp with rfl | hp'
                · simp at hq
                · exact hinv.einv.staged_ne p hp' q hq
          · -- key found: update or skip
            rename_i item hitem
            have hmem : item ∈ ps.es.rawData :=
              hinv.data_sub (key, item) (alookup_mem _ _ _ hitem)
            split at h
            · injection h with h
              subst h
              exact ⟨⟨hinv.einv.raw_born, hinv.einv.raw_lt, hinv.einv.raw_nodup,
                hinv.einv.next_ge, hinv.einv.upd_keys_nodup, hinv.einv.upd_sub,
                hinv.einv.entry_nodup, hinv.einv.staged_ne⟩, hinv.data_sub⟩
            · refine processMatchedRow_inv task cmp source ps
                { ps.es with cache := cache1 } item false key row
                (ps.dataNotRead.erase item.rid) ps' hcmps hinv.einv.raw_born hinv.einv.raw_lt
                hinv.einv.raw_nodup hinv.einv.next_ge hinv.data_sub
                (hinv.einv.raw_born item hmem)
                (hinv.einv.raw_lt item hmem)
                (fun hc => nomatch hc)
                (fun _ => hmem)
                ⟨hinv.einv.upd_keys_nodup,
                 fun p hp => Or.inl (hinv.einv.upd_sub p hp),
                 hinv.einv.entry_nodup, hinv.einv.staged_ne⟩ h

/-- Every record the key lookup maps to is in the working set. -/
theorem buildData_sub (source : Source) (es : EngineState) :
    ∀ p ∈ buildData source es, (p.2 : Record) ∈ es.rawData := by
  unfold buildData
  suffices hgen : ∀ (l : List Record) (d0 : List (Val × Record)),
      (∀ p ∈ d0, (p.2 : Record) ∈ es.rawData) → (∀ r ∈ l, r ∈ es.rawData) →
      ∀ p ∈ l.foldl (fun d x => aset (source.key_comparator
        (get_updated_value_for es.updates x source.keycolumn_name)) x d) d0,
      (p.2 : Record) ∈ es.rawData by
    exact fun p hp => hgen es.rawData [] (by simp) (fun r hr => hr) p hp
  intro l
  induction l with
  | nil =>
    intro d0 hd _ p hp
    exact hd p hp
  | cons x rest ih =>
    intro d0 hd hl p hp
    rw [List.foldl_cons] at hp
    refine ih _ ?_ (fun r hr => hl r (List.mem_cons_of_mem _ hr)) p hp
    intro q hq
    rcases mem_aset _ _ _ _ hq with rfl | hq'
    · exact hl x (List.mem_cons_self _ _)
    · exact hd q hq'

/-- The row loop preserves the matching-phase invariant. -/
theorem processRow_fold_inv (task : Task) (cmp : String → Val → Val → Bool)
    (source : Source)
    (hcmps : ∀ nc ∈ source.columns, ∀ v w,
      nc.2.comparator v w = false → cmp nc.1 v w = false) :
    ∀ (l : List (Nat × List String)) (ps ps' : ParseState),
    ParseInv task cmp ps →
    (l.foldlM (fun ps p => processRow task source ps p.1 p.2) ps = .ok ps') →
    ParseInv task cmp ps' := by
  intro l
  induction l with
  | nil =>
    intro ps ps' hinv h
    rw [List.foldlM_nil] at h
    injection h with h
    subst h
    exact hinv
  | cons p rest ih =>
    intro ps ps' hinv h
    rw [List.foldlM_cons] at h
    cases hx : processRow task source ps p.1 p.2 with
    | error e =>
      rw [hx] at h
      cases h
    | ok ps1 =>
      rw [hx] at h
      exact ih ps1 ps' (processRow_inv task cmp source ps p.1 p.2 ps1 hcmps hinv hx) h

/-- `_parseSource` preserves the engine invariant. -/
theorem parseSource_inv (task : Task) (cmp : String → Val → Val → Bool)
    (source : Source) (es es' : EngineState) (cnt : SourceCounters)
    (hcmps : ∀ nc ∈ source.columns, ∀ v w,
      nc.2.comparator v w = false → cmp nc.1 v w = false)
    (hinv : EngineInv task cmp es)
    (h : parseSource task source es = .ok (es', cnt)) :
    EngineInv task cmp es' := by
  simp only [parseSource] at h
  split at h
  · cases h
  · rename_i ps hps
    injection h with h
    have hinv' : ParseInv task cmp ps :=
      processRow_fold_inv task cmp source hcmps source.rows.enum
        { es := es, counters := {}, data := buildData source es,
          dataNotRead := es.rawData.map Record.rid }
        ps ⟨hinv, buildData_sub source es⟩ hps
    have : ps.es = es' := congrArg Prod.fst h
    rw [← this]
    exact hinv'.einv

/-- The whole matching phase establishes the engine invariant. -/
theorem parsePhase_inv (task : Task) (cmp : String → Val → Val → Bool)
    (hcmps : ∀ s ∈ task.sources, ∀ nc ∈ s.columns, ∀ v w,
      nc.2.comparator v w = false → cmp nc.1 v w = false)
    (es : EngineState) (cs : List SourceCounters)
    (h : parsePhase task = .ok (es, cs)) :
    EngineInv task cmp es := by
  simp only [parsePhase] at h
  have hinit : EngineInv task cmp
      { rawData := task.modelData.enum.map
          (fun p => ({ rid := p.1, fields := p.2 } : Record)),
        nextRid := (task.modelData.enum.map
          (fun p => ({ rid := p.1, fields := p.2 } : Record))).length,
        updates := [], cache := [] } := by
    refine ⟨fun r hr => (loaded_record_born task r hr).1,
      fun r hr => ?_, loaded_records_nodup task, by simp,
      List.nodup_nil, fun p hp => absurd hp (List.not_mem_nil p),
      fun p hp => absurd hp (List.not_mem_nil p),
      fun p hp => absurd hp (List.not_mem_nil p)⟩
    have := (loaded_record_born task r hr).2
    simpa using this
  revert h
  suffices hgen : ∀ (srcs : List Source), (∀ s ∈ srcs, s ∈ task.sources) →
      ∀ (st : EngineState × List SourceCounters), EngineInv task cmp st.1 →
      (srcs.foldlM (fun (st : EngineState × List SourceCounters) (source : Source) =>
        match parseSource task source st.1 with
        | Except.error e => Except.error e
        | Except.ok (es2, c) => Except.ok (es2, st.2 ++ [c])) st = Except.ok (es, cs)) →
      EngineInv task cmp es by
    intro h
    exact hgen task.sources (fun _ hx => hx) _ hinit h
  intro srcs
  induction srcs with
  | nil =>
    intro _ st hst h
    rw [List.foldlM_nil] at h
    injection h with h
    rw [h] at hst
    exact hst
  | cons s rest ih =>
    intro hsub st hst h
    rw [List.foldlM_cons] at h
    cases hx : parseSource task s st.1 with
    | error e =>
      rw [hx] at h
      have hbad : (Except.error e : Except Exc (EngineState × List SourceCounters)) =
          Except.ok (es, cs) := h
      cases hbad
    | ok p =>
      rw [hx] at h
      refine ih (fun x hx2 => hsub x (List.mem_cons_of_mem _ hx2)) (p.1, st.2 ++ [p.2]) ?_ ?_
      · exact parseSource_inv task cmp s st.1 p.1 p.2
          (hcmps s (hsub s (List.mem_cons_self _ _))) hst hx
      · obtain ⟨p1, p2⟩ := p
        exact h

/-! ## Apply-phase machinery -/

theorem applyFieldFold_rid (task : Task) (entryHist : List String) :
    ∀ (upd : List (String × Val)) (st : Record × Option HistoryRecord),
    ((upd.foldl (applyFieldStep task entryHist) st).1).rid = st.1.rid := by
  intro upd
  induction upd with
  | nil => intro st; rfl
  | cons nv rest ih =>
    intro st
    rw [List.foldl_cons, ih]
    rfl

theorem pairs_trans (item : Record) (nv : String × Val) (rest : List (String × Val))
    (hnotin : nv.1 ∉ rest.map Prod.fst)
    (hs : List (String × Val × Val))
    (hprops : ∀ q ∈ hs, (q.1, q.2.2) ∈ rest ∧ q.2.1 = (item.setF nv.1 nv.2).getF q.1) :
    ∀ q ∈ hs, (q.1, q.2.2) ∈ nv :: rest ∧ q.2.1 = item.getF q.1 := by
  intro q hq
  obtain ⟨hm, hv⟩ := hprops q hq
  have hne : nv.1 ≠ q.1 := by
    intro hc
    exact hnotin (by
      rw [hc]
      exact List.mem_map.mpr ⟨(q.1, q.2.2), hm, rfl⟩)
  exact ⟨List.mem_cons_of_mem _ hm, by rw [hv, Record.getF_setF_ne _ _ _ _ hne]⟩

/-- What the per-field apply loop does to the lazily-created History
Companion: its identity is the record's, it is created unstamped, its pairs
are appended in order, each recording a staged value together with the
`getattr` old value read before any `setattr` touched that field. -/
theorem applyFieldFold_hist (task : Task) (entryHist : List String) :
    ∀ (upd : List (String × Val)), (upd.map Prod.fst).Nodup →
    ∀ (item : Record) (hist : Option HistoryRecord) (h' : HistoryRecord),
    (upd.foldl (applyFieldStep task entryHist) (item, hist)).2 = some h' →
    (∃ h0, hist = some h0 ∧ h'.model_rid = h0.model_rid ∧ h'.stamped = h0.stamped ∧
       ∃ hs, h'.pairs = h0.pairs ++ hs ∧
         ∀ q ∈ hs, (q.1, q.2.2) ∈ upd ∧ q.2.1 = item.getF q.1) ∨
    (hist = Option.none ∧ h'.model_rid = item.rid ∧ h'.stamped = false ∧
       h'.pairs ≠ [] ∧ ∀ q ∈ h'.pairs, (q.1, q.2.2) ∈ upd ∧ q.2.1 = item.getF q.1) := by
  intro upd
  induction upd with
  | nil =>
    intro _ item hist h' hfold
    left
    exact ⟨h', hfold, rfl, rfl, [], by simp, by simp⟩
  | cons nv rest ih =>
    intro hnd item hist h' hfold
    rw [List.foldl_cons] at hfold
    simp only [List.map_cons, List.nodup_cons] at hnd
    by_cases hflag : task.keep_history = true ∧ nv.1 ∈ entryHist
    · have hstep : applyFieldStep task entryHist (item, hist) nv =
          (item.setF nv.1 nv.2,
           some { hist.getD (createHistoryModel item) with
                  pairs := (hist.getD (createHistoryModel item)).pairs ++
                    [(nv.1, item.getF nv.1, nv.2)] }) := by
        simp only [applyFieldStep, if_pos hflag]
      rw [hstep] at hfold
      rcases ih hnd.2 (item.setF nv.1 nv.2) _ h' hfold with
        ⟨h0, hh0, hrid, hst, hs, hpairs, hprops⟩ | ⟨hh0, _, _, _, _⟩
      · injection hh0 with hh0
        cases hist with
        | some horig =>
          left
          refine ⟨horig, rfl, ?_, ?_, [(nv.1, item.getF nv.1, nv.2)] ++ hs, ?_, ?_⟩
          · rw [hrid, ← hh0]
            rfl
          · rw [hst, ← hh0]
            rfl
          · rw [hpairs, ← hh0]
            simp
          · intro q hq
            rcases List.mem_append.mp hq with hq' | hq'
            · rw [List.mem_singleton.mp hq']
              exact ⟨List.mem_cons_self _ _, rfl⟩
            · exact pairs_trans item nv rest hnd.1 hs hprops q hq'
        | none =>
          right
          refine ⟨rfl, ?_, ?_, ?_, ?_⟩
          · rw [hrid, ← hh0]
            rfl
          · rw [hst, ← hh0]
            rfl
          · rw [hpairs, ← hh0]
            simp
          · intro q hq
            rw [hpairs, ← hh0] at hq
            simp only [createHistoryModel, List.nil_append] at hq
            rcases List.mem_cons.mp hq with hq' | hq'
            · rw [hq']
              exact ⟨List.mem_cons_self _ _, rfl⟩
            · exact pairs_trans item nv rest hnd.1 hs hprops q hq'
      · cases hh0
    · have hstep : applyFieldStep task entryHist (item, hist) nv =
          (item.setF nv.1 nv.2, hist) := by
        simp only [applyFieldStep, if_neg hflag]
      rw [hstep] at hfold
      rcases ih hnd.2 (item.setF nv.1 nv.2) hist h' hfold with
        ⟨h0, hh0, hrid, hst, hs, hpairs, hprops⟩ | ⟨hh0, hrid, hst, hne, hprops⟩
      · left
        exact ⟨h0, hh0, hrid, hst, hs, hpairs,
          pairs_trans item nv rest hnd.1 hs hprops⟩
      · right
        refine ⟨hh0, by rw [hrid]; rfl, hst, hne, ?_⟩
        exact pairs_trans item nv rest hnd.1 h'.pairs hprops

/-- What one `_apply_updates_for` call can append to the pending-insert
effects: nothing, the record itself (creating), or a single stamped,
non-empty History Companion for this very record (updating), whose pairs
record staged values against the pre-apply `getattr` old values. -/
theorem applyUpdatesFor_spec (task : Task) (updatesMap : UpdatesMap)
    (acc : ApplyState) (rid : Nat)
    (hnd : ∀ entry, alookup rid updatesMap = some entry →
      ((entry : PendingEntry).updates.map Prod.fst).Nodup) :
    ∃ (records' : List Record) (newEffs : List DbEffect) (cnt' : ApplyCounters),
      applyUpdatesFor task updatesMap acc rid = (records', acc.2.1 ++ newEffs, cnt') ∧
      (∀ r', r' ≠ rid → findRecord records' r' = findRecord acc.1 r') ∧
      (newEffs = [] ∨
       (∃ entry, alookup rid updatesMap = some entry ∧ entry.creating = true ∧
          newEffs = [DbEffect.addItem rid]) ∨
       (∃ entry h, alookup rid updatesMap = some entry ∧ entry.creating = false ∧
          newEffs = [DbEffect.addHistory h] ∧ h.model_rid = rid ∧ h.stamped = true ∧
          h.pairs ≠ [] ∧
          ∃ item, findRecord acc.1 rid = some item ∧
            ∀ q ∈ h.pairs, (q.1, q.2.2) ∈ entry.updates ∧ q.2.1 = item.getF q.1)) ∧
      (∀ entry item, alookup rid updatesMap = some entry → entry.creating = true →
        findRecord acc.1 rid = some item →
        task_validate_updates task updatesMap item = true →
        newEffs = [DbEffect.addItem rid]) := by
  obtain ⟨records, effects, cnt⟩ := acc
  cases halo : alookup rid updatesMap with
  | none =>
    refine ⟨records, [], cnt, ?_, fun _ _ => rfl, Or.inl rfl, ?_⟩
    · simp [applyUpdatesFor, halo]
    · intro entry _ he
      cases he
  | some entry =>
    cases hfind : findRecord records rid with
    | none =>
      refine ⟨records, [], cnt, ?_, fun _ _ => rfl, Or.inl rfl, ?_⟩
      · simp [applyUpdatesFor, halo, hfind]
      · intro e2 item he hcr hf
        cases hf
    | some item =>
      have hitem_rid : item.rid = rid := findRecord_some_rid records rid item hfind
      by_cases hval : task_validate_updates task updatesMap item = true
      · have hrid1 : ((entry.updates.foldl (applyFieldStep task entry.hist)
            (item, Option.none)).1).rid = rid := by
          rw [applyFieldFold_rid]
          exact hitem_rid
        have hfind_pres : ∀ r', r' ≠ rid →
            findRecord (setRecord records
              (entry.updates.foldl (applyFieldStep task entry.hist)
                (item, Option.none)).1) r' = findRecord records r' := by
          intro r' hr'
          apply findRecord_setRecord_ne
          rw [hrid1]
          exact hr'
        by_cases hcr : entry.creating = true
        · refine ⟨_, [DbEffect.addItem rid], { cnt with created := cnt.created + 1 },
            ?_, hfind_pres,
            Or.inr (Or.inl ⟨entry, rfl, hcr, rfl⟩), fun _ _ _ _ _ _ => rfl⟩
          simp [applyUpdatesFor, halo, hfind, hval, hcr]
        · have hfalse : ∀ (e2 : PendingEntry), some entry = some e2 →
              e2.creating = true → False := by
            intro e2 he hc
            injection he with he
            subst he
            exact absurd hc hcr
          by_cases hemp : entry.updates = []
          · refine ⟨_, [], cnt, ?_, hfind_pres, Or.inl rfl, fun e2 _ he hc _ _ => (hfalse e2 he hc).elim⟩
            simp [applyUpdatesFor, halo, hfind, hval, hcr, hemp]
          · cases hhist : (entry.updates.foldl (applyFieldStep task entry.hist)
                (item, Option.none)).2 with
            | none =>
              refine ⟨_, [], { cnt with updated := cnt.updated + 1 }, ?_, hfind_pres,
                Or.inl rfl, fun e2 _ he hc _ _ => (hfalse e2 he hc).elim⟩
              simp [applyUpdatesFor, halo, hfind, hval, hcr, hemp, hhist]
            | some hrec =>
              have hprops := applyFieldFold_hist task entry.hist entry.updates
                (hnd entry halo) item Option.none hrec hhist
              rcases hprops with ⟨h0, hh0, _⟩ | ⟨_, hrid2, hst2, hne2, hp2⟩
              · cases hh0
              · refine ⟨_, [DbEffect.addHistory { hrec with stamped := true }],
                  { cnt with updated := cnt.updated + 1,
                             history_created := cnt.history_created + 1 }, ?_,
                  hfind_pres, Or.inr (Or.inr ⟨entry, { hrec with stamped := true },
                    rfl, (by
                      cases hc : entry.creating with
                      | true => exact absurd hc hcr
                      | false => rfl), rfl, (by
                      show hrec.model_rid = rid
                      rw [hrid2, hitem_rid]), rfl, (by
                      show hrec.pairs ≠ []
                      exact hne2), item, rfl, hp2⟩),
                  fun e2 _ he hc _ _ => (hfalse e2 he hc).elim⟩
                simp [applyUpdatesFor, halo, hfind, hval, hcr, hemp, hhist]
      · refine ⟨records, [], { cnt with rejected := cnt.rejected + 1 }, ?_,
          fun _ _ => rfl, Or.inl rfl, ?_⟩
        · simp only [applyUpdatesFor, halo, hfind]
          rw [if_pos (by
            cases hv : task_validate_updates task updatesMap item with
            | true => exact absurd hv hval
            | false => rfl)]
          rw [List.append_nil]
        · intro e2 it he hc hf hv
          injection he with he
          injection hf with hf
          subst he
          subst hf
          exact absurd hv hval

/-- The properties a History Companion registered for insertion enjoys,
stated against the pending-update map and the pre-apply working set: it is
stamped, non-empty, raised for a record with a non-creating pending entry,
and each recorded pair couples a staged value with the record's pre-apply
old value for that field. -/
def GoodHist (updatesMap : UpdatesMap) (records0 : List Record)
    (h : HistoryRecord) : Prop :=
  h.stamped = true ∧ h.pairs ≠ [] ∧
  ∃ entry item, alookup h.model_rid updatesMap = some entry ∧
    entry.creating = false ∧
    findRecord records0 h.model_rid = some item ∧
    ∀ q ∈ h.pairs, (q.1, q.2.2) ∈ entry.updates ∧ q.2.1 = item.getF q.1

theorem isHistFor_effRid (rid : Nat) (ef : DbEffect)
    (h : isHistFor rid ef = true) : effRid ef = some rid := by
  cases ef with
  | addItem r => cases h
  | commit => cases h
  | addHistory hr =>
    simp only [isHistFor, decide_eq_true_eq] at h
    simp [effRid, h]

/-- Invariant of the apply loop of `_read`: over a list of distinct pending
identities no identity is revisited, so the accumulated effects hold at most
one History Companion per record, each satisfying `GoodHist` and never
paired with an insertion of its own record. -/
theorem applyFold_effects (task : Task) (updatesMap : UpdatesMap)
    (records0 : List Record)
    (hnd : ∀ p ∈ updatesMap, ((p.2 : PendingEntry).updates.map Prod.fst).Nodup) :
    ∀ (rids : List Nat) (acc : ApplyState),
    rids.Nodup →
    (∀ r ∈ rids, findRecord acc.1 r = findRecord records0 r) →
    (∀ ef ∈ acc.2.1, ∀ r ∈ rids, effRid ef ≠ some r) →
    (∀ r, (acc.2.1.filter (isHistFor r)).length ≤ 1) →
    (∀ h, DbEffect.addHistory h ∈ acc.2.1 →
      DbEffect.addItem h.model_rid ∉ acc.2.1 ∧ GoodHist updatesMap records0 h) →
    (∀ r, (((rids.foldl (applyUpdatesFor task updatesMap) acc).2.1.filter
        (isHistFor r)).length ≤ 1)) ∧
    (∀ h, DbEffect.addHistory h ∈
        (rids.foldl (applyUpdatesFor task updatesMap) acc).2.1 →
      DbEffect.addItem h.model_rid ∉
        (rids.foldl (applyUpdatesFor task updatesMap) acc).2.1 ∧
      GoodHist updatesMap records0 h) := by
  intro rids
  induction rids with
  | nil =>
    intro acc _ _ _ hcount hgood
    exact ⟨hcount, hgood⟩
  | cons r rest ih =>
    intro acc hndr hrec hpre hcount hgood
    simp only [List.nodup_cons] at hndr
    obtain ⟨records', newEffs, cnt', heq, hpres, hdisj, _⟩ :=
      applyUpdatesFor_spec task updatesMap acc r
        (fun entry he => hnd (r, entry) (alookup_mem r updatesMap entry he))
    rw [List.foldl_cons, heq]
    have hnewrid : ∀ ef ∈ newEffs, effRid ef = some r := by
      rcases hdisj with rfl | ⟨entry, _, _, rfl⟩ | ⟨entry, h, _, _, rfl, hmr, _⟩
      · intro ef hef
        cases hef
      · intro ef hef
        rw [List.mem_singleton.mp hef]
        rfl
      · intro ef hef
        rw [List.mem_singleton.mp hef]
        simp [effRid, hmr]
    refine ih (records', acc.2.1 ++ newEffs, cnt') hndr.2 ?_ ?_ ?_ ?_
    · intro r'' hr''
      have hne : r'' ≠ r := fun hc => hndr.1 (hc ▸ hr'')
      rw [hpres r'' hne]
      exact hrec r'' (List.mem_cons_of_mem _ hr'')
    · intro ef hef r'' hr''
      rcases List.mem_append.mp hef with hef | hef
      · exact hpre ef hef r'' (List.mem_cons_of_mem _ hr'')
      · rw [hnewrid ef hef]
        intro hc
        injection hc with hc
        exact hndr.1 (hc ▸ hr'')
    · intro r''
      show ((acc.2.1 ++ newEffs).filter (isHistFor r'')).length ≤ 1
      rw [List.filter_append, List.length_append]
      rcases hdisj with rfl | ⟨entry, _, _, rfl⟩ | ⟨entry, h, _, _, rfl, hmr, _⟩
      · simpa using hcount r''
      · have hz : (List.filter (isHistFor r'') [DbEffect.addItem r]).length = 0 := rfl
        rw [hz]
        simpa using hcount r''
      · by_cases hr'' : h.model_rid = r''
        · have hone : (List.filter (isHistFor r'') [DbEffect.addHistory h]).length = 1 := by
            simp [List.filter, isHistFor, hr'']
          rw [hone]
          have hzero : (acc.2.1.filter (isHistFor r'')).length = 0 := by
            rw [List.length_eq_zero, List.filter_eq_nil_iff]
            intro ef hef hp
            have h1 := isHistFor_effRid r'' ef hp
            have h2 := hpre ef hef r (List.mem_cons_self _ _)
            rw [h1] at h2
            exact h2 (by rw [← hr'', hmr])
          rw [hzero]
        · have hz : (List.filter (isHistFor r'') [DbEffect.addHistory h]).length = 0 := by
            simp [List.filter, isHistFor, hr'']
          rw [hz]
          simpa using hcount r''
    · intro h2 hh2
      rcases List.mem_append.mp hh2 with hh2 | hh2
      · obtain ⟨hni, hg⟩ := hgood h2 hh2
        refine ⟨?_, hg⟩
        intro hc
        rcases List.mem_append.mp hc with hc | hc
        · exact hni hc
        · have hx := hnewrid _ hc
          simp only [effRid] at hx
          injection hx with hx
          exact hpre (DbEffect.addHistory h2) hh2 r (List.mem_cons_self _ _)
            (by simp [effRid, hx])
      · rcases hdisj with rfl | ⟨entry, _, _, rfl⟩ |
          ⟨entry, h, halo, hcr, rfl, hmr, hst, hpne, item, hfi, hpq⟩
        · cases hh2
        · rw [List.mem_singleton] at hh2
          cases hh2
        · rw [List.mem_singleton] at hh2
          injection hh2 with hh2
          subst hh2
          constructor
          · intro hc
            rcases List.mem_append.mp hc with hc | hc
            · exact hpre (DbEffect.addItem h2.model_rid) hc r (List.mem_cons_self _ _)
                (by simp [effRid, hmr])
            · rw [List.mem_singleton] at hc
              cases hc
          · refine ⟨hst, hpne, entry, item, ?_, hcr, ?_, hpq⟩
            · rw [hmr]
              exact halo
            · rw [hmr, ← hrec r (List.mem_cons_self _ _)]
              exact hfi

/-- Identities never processed by the apply loop gain no insertion effect. -/
theorem applyFold_count_notin (task : Task) (updatesMap : UpdatesMap)
    (hnd : ∀ p ∈ updatesMap, ((p.2 : PendingEntry).updates.map Prod.fst).Nodup) :
    ∀ (rids : List Nat) (acc : ApplyState) (rid : Nat), rid ∉ rids →
    ((rids.foldl (applyUpdatesFor task updatesMap) acc).2.1.count
        (DbEffect.addItem rid)) = acc.2.1.count (DbEffect.addItem rid) := by
  intro rids
  induction rids with
  | nil =>
    intro acc rid _
    rfl
  | cons r rest ih =>
    intro acc rid hrid
    obtain ⟨records', newEffs, cnt', heq, _, hdisj, _⟩ :=
      applyUpdatesFor_spec task updatesMap acc r
        (fun entry he => hnd (r, entry) (alookup_mem r updatesMap entry he))
    rw [List.foldl_cons, heq,
      ih (records', acc.2.1 ++ newEffs, cnt') rid
        (fun hc => hrid (List.mem_cons_of_mem _ hc))]
    show (acc.2.1 ++ newEffs).count (DbEffect.addItem rid) =
      acc.2.1.count (DbEffect.addItem rid)
    rw [List.count_append]
    have hz : newEffs.count (DbEffect.addItem rid) = 0 := by
      rcases hdisj with rfl | ⟨entry, _, _, rfl⟩ | ⟨entry, h, _, _, rfl, _⟩
      · rfl
      · have hne : rid ≠ r := fun hc => hrid (hc ▸ List.mem_cons_self _ _)
        simp [List.count_cons, hne]
      · simp [List.count_cons]
    rw [hz, Nat.add_zero]

/-- A creating identity processed by the apply loop, whose record is found
and validates, contributes exactly one insertion effect. -/
theorem applyFold_count_create (task : Task) (updatesMap : UpdatesMap)
    (records0 : List Record)
    (hnd : ∀ p ∈ updatesMap, ((p.2 : PendingEntry).updates.map Prod.fst).Nodup) :
    ∀ (rids : List Nat) (acc : ApplyState) (rid : Nat) (entry : PendingEntry)
      (item : Record),
    rids.Nodup → rid ∈ rids →
    (∀ r ∈ rids, findRecord acc.1 r = findRecord records0 r) →
    alookup rid updatesMap = some entry → entry.creating = true →
    findRecord records0 rid = some item →
    task_validate_updates task updatesMap item = true →
    ((rids.foldl (applyUpdatesFor task updatesMap) acc).2.1.count
        (DbEffect.addItem rid)) = acc.2.1.count (DbEffect.addItem rid) + 1 := by
  intro rids
  induction rids with
  | nil =>
    intro acc rid entry item _ hmem
    cases hmem
  | cons r rest ih =>
    intro acc rid entry item hndr hmem hrec halo hcr hfo hval
    simp only [List.nodup_cons] at hndr
    obtain ⟨records', newEffs, cnt', heq, hpres, hdisj, hpos⟩ :=
      applyUpdatesFor_spec task updatesMap acc r
        (fun e he => hnd (r, e) (alookup_mem r updatesMap e he))
    rw [List.foldl_cons, heq]
    by_cases hr : r = rid
    · subst hr
      have hnew : newEffs = [DbEffect.addItem r] :=
        hpos entry item halo hcr
          (by rw [hrec r (List.mem_cons_self _ _)]; exact hfo) hval
      rw [applyFold_count_notin task updatesMap hnd rest _ r hndr.1]
      show (acc.2.1 ++ newEffs).count (DbEffect.addItem r) =
        acc.2.1.count (DbEffect.addItem r) + 1
      rw [hnew, List.count_append]
      simp [List.count_cons]
    · have hmem' : rid ∈ rest := by
        rcases List.mem_cons.mp hmem with hc | hc
        · exact absurd hc.symm hr
        · exact hc
      have hz : newEffs.count (DbEffect.addItem rid) = 0 := by
        rcases hdisj with rfl | ⟨e, _, _, rfl⟩ | ⟨e, h, _, _, rfl, _⟩
        · rfl
        · have hne : DbEffect.addItem rid ≠ DbEffect.addItem r := by
            intro hc
            injection hc with hc
            exact hr hc.symm
          simp [List.count_cons, hne]
        · simp [List.count_cons]
      have hrec' : ∀ r'' ∈ rest, findRecord records' r'' = findRecord records0 r'' := by
        intro r'' hr''
        have hne3 : r'' ≠ r := fun hc => hndr.1 (hc ▸ hr'')
        rw [hpres r'' hne3]
        exact hrec r'' (List.mem_cons_of_mem _ hr'')
      rw [ih (records', acc.2.1 ++ newEffs, cnt') rid entry item hndr.2 hmem'
        hrec' halo hcr hfo hval]
      show (acc.2.1 ++ newEffs).count (DbEffect.addItem rid) + 1 =
        acc.2.1.count (DbEffect.addItem rid) + 1
      rw [List.count_append, hz, Nat.add_zero]

/-! ## The claims -/

/-- C10: In the matching loop, whenever the cancellation branch is taken for
a field — the parsed value comparator-unequal to the effective (staged)
value yet comparator-equal to the record's live value — that field
necessarily has a staged entry for that record, since with no staged entry
the effective value and the live value coincide and a deterministic
comparator cannot give different answers on them; consequently the deletion
performed by `cancel_updated_value_for` always finds the entry and returns
normally instead of raising `KeyError`. -/
theorem c10_cancellation_never_fails (updates : UpdatesMap) (item : Record)
    (name : String) (col : Column) (new_value : Val)
    (hne : col.comparator new_value (get_updated_value_for updates item name) = false)
    (heq : col.comparator new_value (item.getF name) = true) :
    (∃ e, alookup item.rid updates = some e ∧ ∃ v, alookup name e.updates = some v) ∧
    ∃ u, cancel_updated_value_for updates item.rid name = .ok u := by
  obtain ⟨e, h1, v, h2⟩ := staged_entry_of_comparator_branch updates item name
    col.comparator new_value hne heq
  exact ⟨⟨e, h1, v, h2⟩, _, cancel_ok_of_staged updates item.rid name e v h1 h2⟩

/-- Witness for C10 at a concrete state: `"id"` staged to `"X"`, live value
`None`, parsed value `""` under the empty-string-normalising comparator. -/
theorem c10_witness :
    (normCol.comparator (Val.str "")
       (get_updated_value_for wit10updates wit10item "id") = false) ∧
    (normCol.comparator (Val.str "") (wit10item.getF "id") = true) ∧
    ((∃ e, alookup wit10item.rid wit10updates = some e ∧
        ∃ v, alookup "id" e.updates = some v) ∧
     ∃ u, cancel_updated_value_for wit10updates wit10item.rid "id" = .ok u) :=
  ⟨by decide, by decide,
   c10_cancellation_never_fails wit10updates wit10item "id" normCol (Val.str "")
     (by decide) (by decide)⟩

/-- C7: a Column with `should_update = False` is skipped outright for a
record that is not being created: the column-loop step returns the state
unchanged, so nothing is staged or altered for that field, whatever value
the row carries (the column is only consulted when creating). -/
theorem c7_should_update_false_frame (es : EngineState) (item : Record)
    (row : List String) (nc : String × Column) (h : nc.2.should_update = false) :
    processColumn es item false row nc = .ok es := by
  unfold processColumn
  simp [h]

/-- Witness for C7 on a concrete state and column. -/
theorem c7_witness :
    wit7col.2.should_update = false ∧
    processColumn wit7es wit10item false ["1", "B", "W"] wit7col = .ok wit7es :=
  ⟨rfl, c7_should_update_false_frame wit7es wit10item ["1", "B", "W"] wit7col rfl⟩

/-- C6: a source row whose extracted key is null only increments the
source's `ignored_missing_id` counter (and, as always, leaves the value
cache as key extraction left it): no record is created, the working set,
the key lookup, the unmatched set, the Pending Update Set and every other
counter are unchanged. -/
theorem c6_missing_key_no_effect (task : Task) (source : Source) (ps : ParseState)
    (line_idx : Nat) (row : List String) (cache' key_cache : Cache)
    (hline : ¬ ((line_idx : Int) ≤ source.header_line_number))
    (hsi : source.should_import row ps.es.cache = (true, cache'))
    (hkey : source.get_key row ([] : Cache) = (.ok Val.none, key_cache)) :
    processRow task source ps line_idx row =
      .ok { ps with
            es := { ps.es with cache := key_cache }
            counters := { ps.counters with
                          ignored_missing_id := ps.counters.ignored_missing_id + 1 } } := by
  unfold processRow
  rw [if_neg hline, hsi, hkey]
  simp

/-- Witness for C6: a row parsing an empty key against an empty state. -/
theorem c6_witness :
    processRow ({} : Task) wit6src wit6ps 0 [""] =
      .ok { wit6ps with
            es := { wit6ps.es with cache := [(0, Val.none)] }
            counters := { wit6ps.counters with ignored_missing_id := 1 } } :=
  c6_missing_key_no_effect {} wit6src wit6ps 0 [""] wit6ps.es.cache [(0, Val.none)]
    (by decide) rfl rfl

/-- C1: during the matching phase, after a successful extraction whose value
is comparator-unequal to the effective (staged-or-live) value: if the value
is comparator-equal to the record's original pre-run live value, the staged
entry for the field is removed and its history flag discarded — and when
that leaves the staged field map empty, the record's whole pending entry
disappears from the Pending Update Set; otherwise the value is staged, the
field becoming history-flagged through this staging only when
`not creating and keep_history` (a flag set by an earlier staging
persists). -/
theorem c1_cancel_or_stage (es : EngineState) (item : Record) (creating : Bool)
    (row : List String) (nc : String × Column) (new_value : Val) (cache' : Cache)
    (hsu : ¬ (creating = false ∧ nc.2.should_update = false))
    (hnull : ¬ (creating = false ∧ nc.2.should_update_only_if_null = true ∧
       get_updated_value_for es.updates item nc.1 ≠ Val.none))
    (hget : nc.2.get row es.cache = (.ok new_value, cache'))
    (hne : nc.2.comparator new_value (get_updated_value_for es.updates item nc.1) = false)
    (hnd : (es.updates.map Prod.fst).Nodup)
    (hwf : ∀ e, alookup item.rid es.updates = some e → EntryWF e) :
    (nc.2.comparator new_value (item.getF nc.1) = true →
       ∃ es', processColumn es item creating row nc = .ok es' ∧
         es'.cache = cache' ∧ es'.rawData = es.rawData ∧ es'.nextRid = es.nextRid ∧
         (∀ e', alookup item.rid es'.updates = some e' →
            alookup nc.1 e'.updates = Option.none ∧ nc.1 ∉ e'.hist) ∧
         (∀ e, alookup item.rid es.updates = some e → aerase nc.1 e.updates = [] →
            alookup item.rid es'.updates = Option.none)) ∧
    (nc.2.comparator new_value (item.getF nc.1) = false →
       ∃ es', processColumn es item creating row nc = .ok es' ∧
         es'.cache = cache' ∧ es'.rawData = es.rawData ∧ es'.nextRid = es.nextRid ∧
         ∃ e', alookup item.rid es'.updates = some e' ∧
           alookup nc.1 e'.updates = some new_value ∧
           (nc.1 ∈ e'.hist ↔ ((creating = false ∧ nc.2.keep_history = true) ∨
              (∃ e, alookup item.rid es.updates = some e ∧ nc.1 ∈ e.hist)))) := by
  constructor
  · intro heq
    obtain ⟨e, h1, v, h2⟩ := staged_entry_of_comparator_branch es.updates item nc.1
      nc.2.comparator new_value hne heq
    have hwfe := hwf e h1
    have hcancel := cancel_ok_of_staged es.updates item.rid nc.1 e v h1 h2
    have hrun : processColumn es item creating row nc =
        .ok { es with
              cache := cache'
              updates := if aerase nc.1 e.updates = [] then aerase item.rid es.updates
                else aset item.rid { e with
                                     updates := aerase nc.1 e.updates
                                     hist := e.hist.erase nc.1 } es.updates } := by
      unfold processColumn
      rw [if_neg hsu, if_neg hnull]
      rw [hget]
      simp only [hne, Bool.false_eq_true, if_false, heq, if_true, hcancel]
    refine ⟨_, hrun, rfl, rfl, rfl, ?_, ?_⟩
    · intro e' he'
      by_cases hempty : aerase nc.1 e.updates = []
      · rw [if_pos hempty] at he'
        rw [alookup_aerase_self item.rid es.updates hnd] at he'
        cases he'
      · rw [if_neg hempty] at he'
        rw [alookup_aset_self] at he'
        cases he'
        exact ⟨alookup_aerase_self nc.1 e.updates hwfe.1, hwfe.2.not_mem_erase⟩
    · intro e2 he2 hempty2
      rw [h1] at he2
      cases he2
      rw [if_pos hempty2]
      exact alookup_aerase_self item.rid es.updates hnd
  · intro heq'
    have hrun : processColumn es item creating row nc =
        .ok { es with
              cache := cache'
              updates := set_updated_value_for es.updates item.rid nc.1 new_value
                (!creating && nc.2.keep_history) } := by
      unfold processColumn
      rw [if_neg hsu, if_neg hnull]
      rw [hget]
      simp only [hne, Bool.false_eq_true, if_false, heq', if_true]
    obtain ⟨e', hl, hv, hcr, hhist⟩ := set_updated_value_for_lookup es.updates item.rid
      nc.1 new_value (!creating && nc.2.keep_history)
    refine ⟨_, hrun, rfl, rfl, rfl, e', hl, hv, ?_⟩
    rw [hhist]
    constructor
    · rintro (hb | hold)
      · left
        simp only [Bool.and_eq_true, Bool.not_eq_true'] at hb
        exact hb
      · exact Or.inr hold
    · rintro (⟨hc, hk⟩ | hold)
      · left
        simp only [Bool.and_eq_true, Bool.not_eq_true']
        exact ⟨hc, hk⟩
      · exact Or.inr hold

/-- Witness for C1 at a concrete cancelling input: `"id"` staged to `"X"`,
live value `None`, parsed `""` under the empty-string-normalising
comparator (the staging arm is vacuously instantiated as well). -/
theorem c1_witness :
    (normCol.get [""] wit1es.cache = (.ok (Val.str ""), [(0, Val.str "")])) ∧
    (normCol.comparator (Val.str "")
      (get_updated_value_for wit1es.updates wit10item "id") = false) ∧
    ((normCol.comparator (Val.str "") (wit10item.getF "id") = true →
       ∃ es', processColumn wit1es wit10item false [""] ("id", normCol) = .ok es' ∧
         es'.cache = [(0, Val.str "")] ∧ es'.rawData = wit1es.rawData ∧
         es'.nextRid = wit1es.nextRid ∧
         (∀ e', alookup wit10item.rid es'.updates = some e' →
            alookup "id" e'.updates = Option.none ∧ "id" ∉ e'.hist) ∧
         (∀ e, alookup wit10item.rid wit1es.updates = some e →
            aerase "id" e.updates = [] →
            alookup wit10item.rid es'.updates = Option.none)) ∧
     (normCol.comparator (Val.str "") (wit10item.getF "id") = false →
       ∃ es', processColumn wit1es wit10item false [""] ("id", normCol) = .ok es' ∧
         es'.cache = [(0, Val.str "")] ∧ es'.rawData = wit1es.rawData ∧
         es'.nextRid = wit1es.nextRid ∧
         ∃ e', alookup wit10item.rid es'.updates = some e' ∧
           alookup "id" e'.updates = some (Val.str "") ∧
           ("id" ∈ e'.hist ↔ ((false = false ∧ normCol.keep_history = true) ∨
              (∃ e, alookup wit10item.rid wit1es.updates = some e ∧ "id" ∈ e.hist))))) :=
  ⟨rfl, by decide,
   c1_cancel_or_stage wit1es wit10item false [""] ("id", normCol) (Val.str "")
     [(0, Val.str "")] (by decide) (by decide) rfl (by decide) (by decide)
     (by
       intro e he
       simp [wit1es, wit10updates, wit10item, alookup] at he
       subst he
       exact ⟨by decide, by decide⟩)⟩

/-- A cache-coherent extraction returns the cache-free value and preserves
coherence (cache hits are sound because the cache only ever holds extracted
values, and cache-identity collisions are excluded by `CidCoherent`). -/
theorem Column.get_of_cacheOK (cols : List (String × Column)) (row : List String)
    (cache : Cache) (nc : String × Column) (v : Val)
    (hcid : CidCoherent cols row) (hok : CacheOK cols row cache)
    (hmem : nc ∈ cols) (hp : nc.2.pureGet row = .ok v) :
    ∃ cache', nc.2.get row cache = (.ok v, cache') ∧ CacheOK cols row cache' := by
  unfold Column.get
  cases h : alookup nc.2.cid cache with
  | some w =>
    have hw : (nc.2.cid, w) ∈ cache := alookup_mem _ _ _ h
    have hpw := hok _ hw nc hmem rfl
    rw [hp] at hpw
    injection hpw with hvw
    exact ⟨cache, by rw [hvw], hok⟩
  | none =>
    rw [hp]
    refine ⟨_, rfl, ?_⟩
    intro p hpmem nc' hmem' hcid'
    rcases mem_aset _ _ _ _ hpmem with rfl | hold
    · exact (hcid nc' hmem' nc hmem hcid').trans hp
    · exact hok p hold nc' hmem' hcid'

/-- Column-loop no-op lemma behind C8: when every column's freshly extracted
value is comparator-equal to the record's effective value, the loop changes
nothing but the cache. -/
theorem processColumns_noop (item : Record) (row : List String)
    (full : List (String × Column)) (v : String → Val)
    (hcid : CidCoherent full row)
    (updates : UpdatesMap) (rawData : List Record) (nextRid : Nat)
    (hvals : ∀ nc ∈ full, nc.2.pureGet row = .ok (v nc.1) ∧
      nc.2.comparator (v nc.1) (get_updated_value_for updates item nc.1) = true) :
    ∀ (cols : List (String × Column)), (∀ nc ∈ cols, nc ∈ full) →
    ∀ (cache : Cache), CacheOK full row cache →
    ∃ cache', (cols.foldlM (fun es nc => processColumn es item false row nc)
        ({ rawData := rawData, nextRid := nextRid, updates := updates,
           cache := cache } : EngineState))
      = .ok { rawData := rawData, nextRid := nextRid, updates := updates,
              cache := cache' } ∧
      CacheOK full row cache' := by
  intro cols
  induction cols with
  | nil => exact fun _ cache hc => ⟨cache, rfl, hc⟩
  | cons nc rest ih =>
    intro hsub cache hc
    have hmem : nc ∈ full := hsub nc (List.mem_cons_self _ _)
    obtain ⟨hpg, hcmp⟩ := hvals nc hmem
    by_cases hsu : nc.2.should_update = false
    · have hstep : processColumn
          ({ rawData := rawData, nextRid := nextRid, updates := updates,
             cache := cache } : EngineState) item false row nc =
          .ok { rawData := rawData, nextRid := nextRid, updates := updates,
                cache := cache } := by
        unfold processColumn
        simp [hsu]
      obtain ⟨cache', hfold, hok'⟩ := ih (fun x hx => hsub x (List.mem_cons_of_mem _ hx))
        cache hc
      exact ⟨cache', by rw [List.foldlM_cons, hstep]; exact hfold, hok'⟩
    · by_cases hnull : nc.2.should_update_only_if_null = true ∧
        get_updated_value_for updates item nc.1 ≠ Val.none
      · have hstep : processColumn
            ({ rawData := rawData, nextRid := nextRid, updates := updates,
               cache := cache } : EngineState) item false row nc =
            .ok { rawData := rawData, nextRid := nextRid, updates := updates,
                  cache := cache } := by
          unfold processColumn
          rw [if_neg (by simp [hsu])]
          rw [if_pos ⟨rfl, hnull.1, hnull.2⟩]
        obtain ⟨cache', hfold, hok'⟩ := ih (fun x hx => hsub x (List.mem_cons_of_mem _ hx))
          cache hc
        exact ⟨cache', by rw [List.foldlM_cons, hstep]; exact hfold, hok'⟩
      · obtain ⟨cache₁, hget, hok₁⟩ := Column.get_of_cacheOK full row cache nc
          (v nc.1) hcid hc hmem hpg
        have hstep : processColumn
            ({ rawData := rawData, nextRid := nextRid, updates := updates,
               cache := cache } : EngineState) item false row nc =
            .ok { rawData := rawData, nextRid := nextRid, updates := updates,
                  cache := cache₁ } := by
          unfold processColumn
          rw [if_neg (by simp [hsu])]
          rw [if_neg (by
            intro hcon
            exact hnull ⟨hcon.2.1, hcon.2.2⟩)]
          rw [hget]
          simp only [hcmp, if_true]
        obtain ⟨cache', hfold, hok'⟩ := ih (fun x hx => hsub x (List.mem_cons_of_mem _ hx))
          cache₁ hok₁
        exact ⟨cache', by rw [List.foldlM_cons, hstep]; exact hfold, hok'⟩

/-- C8 (idempotence): for a row matched to an existing record whose every
column extracts a value comparator-equal to the record's current effective
value, the column loop stages zero updates: the Pending Update Set, the
working set and the counters-relevant state are untouched (only the value
cache fills up), so the record's pending entry is exactly what it was —
absent if it was absent. -/
theorem c8_idempotent_row (source : Source) (es : EngineState) (item : Record)
    (row : List String) (v : String → Val)
    (hcid : CidCoherent source.columns row)
    (hcache : CacheOK source.columns row es.cache)
    (hvals : ∀ nc ∈ source.columns, nc.2.pureGet row = .ok (v nc.1) ∧
      nc.2.comparator (v nc.1) (get_updated_value_for es.updates item nc.1) = true) :
    ∃ cache', processColumns source es item false row =
      .ok { es with cache := cache' } := by
  obtain ⟨cache', h, _⟩ := processColumns_noop item row source.columns v hcid
    es.updates es.rawData es.nextRid hvals source.columns (fun _ hx => hx) es.cache hcache
  exact ⟨cache', h⟩

/-- Witness for C8: a single-column source re-importing the value the
record already holds. -/
theorem c8_witness :
    (∀ nc ∈ wit8src.columns, nc.2.pureGet ["1", "B"] = .ok (Val.str "B") ∧
      nc.2.comparator (Val.str "B")
        (get_updated_value_for wit8es.updates wit8item nc.1) = true) ∧
    ∃ cache', processColumns wit8src wit8es wit8item false ["1", "B"] =
      .ok { wit8es with cache := cache' } :=
  ⟨by decide,
   c8_idempotent_row wit8src wit8es wit8item ["1", "B"] (fun _ => Val.str "B")
     (by unfold CidCoherent; decide) (by unfold CacheOK; decide) (by decide)⟩

/-- C3 counterexample: the claim includes among the gracefully handled
errors "a Positional Column with fail_on_out_of_range=True reading past the
end of a too-short row".  But `row[column_number]` raises `IndexError`
(asserted by the repository's own `test_column_outofrange`), and
`IndexError` is not among the classes caught by `_parseSource`'s
`except (ValueError, KeyError, AttributeError)` clause — so such a read
aborts the whole run instead of leaving the field unset and continuing:
here a one-row run with a column reading index 2 of a length-1 row. -/
theorem c3_counterexample :
    runImport c3task false = .error Exc.indexError := rfl

/-- C3 (amended): during a column extraction that is not skipped by the
update-policy guards, an error of format, lookup or attribute-missing kind
(`ValueError`/`KeyError`/`AttributeError`, necessarily from the parser)
leaves the field unstaged for the row and processing continues, whether or
not `warn_on_error` asks for the warning (whose diagnostic re-read always
succeeds for a positional column whose parse failed); an exception of any
other class — in particular the `IndexError` of an out-of-range positional
read with `fail_on_out_of_range = True` on an uncached column — aborts the
whole run. -/
theorem c3_error_taxonomy (es : EngineState) (item : Record) (creating : Bool)
    (row : List String) (nc : String × Column)
    (hsu : ¬ (creating = false ∧ nc.2.should_update = false))
    (hnull : ¬ (creating = false ∧ nc.2.should_update_only_if_null = true ∧
       get_updated_value_for es.updates item nc.1 ≠ Val.none)) :
    (∀ e c₂, nc.2.get row es.cache = (.error e, c₂) → e.isData = true →
       processColumn es item creating row nc = .ok es) ∧
    (∀ e c₂, nc.2.get row es.cache = (.error e, c₂) → e.isData = false →
       processColumn es item creating row nc = .error e) ∧
    (nc.2.fail_on_out_of_range = true → row.length ≤ nc.2.column_number →
       alookup nc.2.cid es.cache = Option.none →
       processColumn es item creating row nc = .error Exc.indexError) := by
  have habort : ∀ e c₂, nc.2.get row es.cache = (.error e, c₂) → e.isData = false →
      processColumn es item creating row nc = .error e := by
    intro e c₂ hget hd
    unfold processColumn
    rw [if_neg hsu, if_neg hnull, hget]
    simp [hd]
  refine ⟨?_, habort, ?_⟩
  · intro e c₂ hget hd
    obtain ⟨hc, hpg⟩ := Column.get_error _ _ _ _ _ hget
    subst hc
    obtain ⟨l, hraw⟩ := pureGet_data_error_raw_ok _ _ _ hpg hd
    unfold processColumn
    rw [if_neg hsu, if_neg hnull, hget]
    by_cases hw : nc.2.warn_on_error = true
    · simp [hd, hw, hraw]
    · simp [hd, hw]
  · intro hf hlen hcid
    have hraw : nc.2.get_raw_values row = .error .indexError := by
      unfold Column.get_raw_values
      simp [hf, List.getElem?_eq_none hlen]
    have hpg : nc.2.pureGet row = .error .indexError := by
      unfold Column.pureGet
      rw [hraw]
    have hget : nc.2.get row es.cache = (.error .indexError, es.cache) := by
      unfold Column.get
      rw [hcid, hpg]
    exact habort .indexError es.cache hget rfl

/-- Witness for C3's amended statement: a parser raising `ValueError`
continues with the field unset; an out-of-range read aborts. -/
theorem c3_witness :
    processColumn wit3es wit10item true ["x"] ("col1", errCol) = .ok wit3es ∧
    processColumn wit3es wit10item true ["x"] ("col1", oorCol) =
      .error Exc.indexError :=
  ⟨(c3_error_taxonomy wit3es wit10item true ["x"] ("col1", errCol)
      (by decide) (by decide)).1 .valueError wit3es.cache rfl rfl,
   (c3_error_taxonomy wit3es wit10item true ["x"] ("col1", oorCol)
      (by decide) (by decide)).2.2 rfl (by decide) rfl⟩

/-- C4 counterexample: the claim says the Value Cache is cleared before the
`should_import` hook is evaluated, so that a value cached while processing
one row is never returned while processing a later row.  In the code the
clear (`_Caching.values.clear()`) comes *after* `should_import`.  Concrete
refutation: a two-row run whose `should_import` accepts exactly on a clear
cache.  Row 0 is imported (and caches its key extraction); row 1 is then
vetoed and counted `ignored` — the hook observed row 0's cached value —
although the same hook on a cleared cache accepts (second conjunct).  Under
the claimed ordering the run would have `ignored = 0`. -/
theorem c4_counterexample :
    runImport c4task false =
      .ok (c4results, [{ rid := 0, fields := [("id", Val.str "a")] }],
           [DbEffect.addItem 0, DbEffect.commit]) ∧
    (c4src.should_import ["b"] ([] : Cache)).1 = true :=
  ⟨rfl, rfl⟩

/-- C4 (amended): the Value Cache is cleared after the `should_import` hook
but before key extraction and the column loop.  Consequently row processing
is insensitive to the incoming cache whenever the source's `should_import`
does not read the cache (the repository default does not): every observable
outcome of a row — working set, pending updates, counters, key lookup and
unmatched set — is the same for any two incoming caches, so values cached
during one row's key/column extraction are never returned during a later
row. -/
theorem c4_cache_cleared_before_extraction (task : Task) (source : Source)
    (f : List String → Bool)
    (hsi : ∀ row c, source.should_import row c = (f row, c))
    (ps : ParseState) (c2 : Cache) (line_idx : Nat) (row : List String) :
    (processRow task source ps line_idx row).map ParseState.obs =
    (processRow task source { ps with es := { ps.es with cache := c2 } }
        line_idx row).map ParseState.obs := by
  unfold processRow
  by_cases hline : (line_idx : Int) ≤ source.header_line_number
  · rw [if_pos hline, if_pos hline]
    rfl
  · rw [if_neg hline, if_neg hline]
    rw [hsi, hsi]
    cases f row with
    | false => rfl
    | true => rfl

/-- Witness for C4's amended statement: the default (cache-oblivious)
`should_import`, two different incoming caches, same observable outcome. -/
theorem c4_witness :
    (processRow ({} : Task) wit6src wit6ps 0 ["k"]).map ParseState.obs =
    (processRow ({} : Task) wit6src
        { wit6ps with es := { wit6ps.es with cache := [(9, Val.int 7)] } }
        0 ["k"]).map ParseState.obs :=
  c4_cache_cleared_before_extraction {} wit6src (fun _ => true)
    (fun _ _ => rfl) wit6ps [(9, Val.int 7)] 0 ["k"]

/-- C5: dry-run does not change the returned counters object nor the final
working set — it only suppresses the single commit call.  For any
configuration (same loaded data, sources, rows and hook outputs) the
results and records of `runImport` coincide for `dryrun = true` and
`dryrun = false`; in particular a counters object is returned whenever the
run succeeds, even with zero staged changes. -/
theorem c5_dryrun_same_counters (task : Task) :
    (runImport task true).map (fun x => (x.1, x.2.1)) =
    (runImport task false).map (fun x => (x.1, x.2.1)) := by
  unfold runImport
  cases parsePhase task with
  | error e => rfl
  | ok p => rfl

/-- C9 counterexample: a record first created during the run does *not*
always keep its creating flag for the entire run.  In `c9task` the first
row creates a record (the task loads no model data, so the working set's
record was created this run), the second row maps to the same key and its
comparator cancels the only staged field against the created record's null
live value; the emptied pending entry is deleted together with its creating
flag, so at apply time the record is counted as created zero times — not
exactly once — and is never registered for insertion (the only effect is
the commit). -/
theorem c9_counterexample :
    runImport c9task false =
      Except.ok (c9results, [{ rid := 0, fields := [] }], [DbEffect.commit]) ∧
    c9task.modelData = [] ∧ c9results.created = 0 :=
  ⟨rfl, rfl, rfl⟩

/-- C9 (amended): staging a further field via `set_updated_value_for` on a
record with a pending entry preserves the entry's creating flag, and for a
record whose entry still carries the flag when the apply phase starts, no
History Companion is ever registered for it, and — when it is present in
the working set and validates — it is registered for insertion exactly
once.  (The claim's "keeps its creating flag for the entire run" is refuted
by `c9task`: redundant-update cancellation can empty and thereby delete the
whole pending entry, discarding the flag.) -/
theorem c9_creating_flag (task : Task) (es : EngineState)
    (cs : List SourceCounters) (rid : Nat) (entry : PendingEntry)
    (hrun : parsePhase task = Except.ok (es, cs))
    (halo : alookup rid es.updates = some entry)
    (hcr : entry.creating = true) :
    (∀ (updates : UpdatesMap) (name : String) (v : Val) (kh : Bool)
       (e : PendingEntry), alookup rid updates = some e →
       ∃ e', alookup rid (set_updated_value_for updates rid name v kh) = some e' ∧
         e'.creating = e.creating) ∧
    (∀ h, DbEffect.addHistory h ∈ (applyPhase task es).2.1 → h.model_rid ≠ rid) ∧
    (∀ item, findRecord es.rawData rid = some item →
      task_validate_updates task es.updates item = true →
      (applyPhase task es).2.1.count (DbEffect.addItem rid) = 1) := by
  have hinv : EngineInv task (fun _ _ _ => false) es :=
    parsePhase_inv task (fun _ _ _ => false)
      (fun _ _ _ _ _ _ _ => rfl) es cs hrun
  refine ⟨?_, ?_, ?_⟩
  · intro updates name v kh e he
    obtain ⟨e', he', _, hcrp, _⟩ := set_updated_value_for_lookup updates rid name v kh
    exact ⟨e', he', hcrp e he⟩
  · intro h hh hmr
    have hres := applyFold_effects task es.updates es.rawData hinv.entry_nodup
      (es.updates.map Prod.fst) (es.rawData, [], {}) hinv.upd_keys_nodup
      (fun _ _ => rfl)
      (fun ef hef _ _ => absurd hef (List.not_mem_nil ef))
      (fun _ => Nat.zero_le 1)
      (fun h2 hh2 => absurd hh2 (List.not_mem_nil _))
    have hh' : DbEffect.addHistory h ∈
        ((es.updates.map Prod.fst).foldl (applyUpdatesFor task es.updates)
          (es.rawData, [], {})).2.1 := hh
    have hg := (hres.2 h hh').2
    unfold GoodHist at hg
    obtain ⟨_, _, entry2, item2, halo2, hcrf, _, _⟩ := hg
    rw [hmr, halo] at halo2
    injection halo2 with halo2
    rw [halo2] at hcr
    rw [hcr] at hcrf
    cases hcrf
  · intro item hfind hval
    have hmem : rid ∈ es.updates.map Prod.fst :=
      List.mem_map.mpr ⟨(rid, entry), alookup_mem rid es.updates entry halo, rfl⟩
    have hcount := applyFold_count_create task es.updates es.rawData
      hinv.entry_nodup (es.updates.map Prod.fst) (es.rawData, [], {}) rid entry
      item hinv.upd_keys_nodup hmem (fun _ _ => rfl) halo hcr hfind hval
    exact hcount

/-- Witness for the amended C9: a one-row creating run whose record keeps
its flag; no History Companion is registered and exactly one insertion is. -/
theorem c9_witness :
    parsePhase c9wtask = Except.ok (c9wes, [c9wcnt]) ∧
    alookup 0 c9wes.updates = some c9wentry ∧ c9wentry.creating = true ∧
    (∀ h, DbEffect.addHistory h ∈ (applyPhase c9wtask c9wes).2.1 →
      h.model_rid ≠ 0) ∧
    (applyPhase c9wtask c9wes).2.1.count (DbEffect.addItem 0) = 1 :=
  ⟨rfl, rfl, rfl,
   (c9_creating_flag c9wtask c9wes [c9wcnt] 0 c9wentry rfl rfl rfl).2.1,
   (c9_creating_flag c9wtask c9wes [c9wcnt] 0 c9wentry rfl rfl rfl).2.2
     { rid := 0, fields := [] } rfl rfl⟩

/-- C2: with run-wide history capture enabled, the apply phase registers at
most one History Companion per record per run; every registered companion is
stamped, non-empty, raised for a record with a non-creating pending entry
(never one being created this run — no insertion of that record is
registered either), and each recorded pair couples the field's pre-run old
value with a staged new value that is comparator-different from it (`cmp`
giving each field's comparator, compatible with every column staging it). -/
theorem c2_history (task : Task) (cmp : String → Val → Val → Bool)
    (es : EngineState) (cs : List SourceCounters)
    (_hkh : task.keep_history = true)
    (hcmps : ∀ s ∈ task.sources, ∀ nc ∈ s.columns, ∀ v w,
      nc.2.comparator v w = false → cmp nc.1 v w = false)
    (hrun : parsePhase task = Except.ok (es, cs)) :
    (∀ rid, (((applyPhase task es).2.1.filter (isHistFor rid)).length ≤ 1)) ∧
    (∀ h, DbEffect.addHistory h ∈ (applyPhase task es).2.1 →
      h.stamped = true ∧ h.pairs ≠ [] ∧
      DbEffect.addItem h.model_rid ∉ (applyPhase task es).2.1 ∧
      (∃ entry, alookup h.model_rid es.updates = some entry ∧
        entry.creating = false) ∧
      ∀ q ∈ h.pairs, q.2.1 = bornVal task h.model_rid q.1 ∧
        cmp q.1 q.2.2 q.2.1 = false) := by
  have hinv : EngineInv task cmp es := parsePhase_inv task cmp hcmps es cs hrun
  have hres := applyFold_effects task es.updates es.rawData hinv.entry_nodup
    (es.updates.map Prod.fst) (es.rawData, [], {}) hinv.upd_keys_nodup
    (fun _ _ => rfl)
    (fun ef hef _ _ => absurd hef (List.not_mem_nil ef))
    (fun _ => Nat.zero_le 1)
    (fun h2 hh2 => absurd hh2 (List.not_mem_nil _))
  constructor
  · intro rid
    exact hres.1 rid
  · intro h hh
    have hh' : DbEffect.addHistory h ∈
        ((es.updates.map Prod.fst).foldl (applyUpdatesFor task es.updates)
          (es.rawData, [], {})).2.1 := hh
    obtain ⟨hni, hg⟩ := hres.2 h hh'
    unfold GoodHist at hg
    obtain ⟨hst, hpne, entry, item, halo, hcrf, hfind, hpq⟩ := hg
    have hmemraw : item ∈ es.rawData := List.mem_of_find?_eq_some hfind
    have hborn : item.fields = bornFields task item.rid :=
      hinv.raw_born item hmemraw
    have hrid : item.rid = h.model_rid :=
      findRecord_some_rid es.rawData h.model_rid item hfind
    have hmementry : (h.model_rid, entry) ∈ es.updates :=
      alookup_mem h.model_rid es.updates entry halo
    refine ⟨hst, hpne, hni, ⟨entry, halo, hcrf⟩, ?_⟩
    intro q hq
    obtain ⟨hqu, hqold⟩ := hpq q hq
    have hold : q.2.1 = bornVal task h.model_rid q.1 := by
      rw [hqold, getF_eq_bornVal task item q.1 hborn, hrid]
    refine ⟨hold, ?_⟩
    rw [hold]
    exact hinv.staged_ne (h.model_rid, entry) hmementry (q.1, q.2.2) hqu

/-- Witness for C2: the loaded record's tracked `col1` is updated from
`"X"` to `"Y"`, producing exactly one stamped History Companion whose
single pair records the pre-run value against the comparator-different
staged value. -/
theorem c2_witness :
    c2wtask.keep_history = true ∧
    parsePhase c2wtask = Except.ok (c2wes, [c2wcnt]) ∧
    (∀ rid, (((applyPhase c2wtask c2wes).2.1.filter (isHistFor rid)).length ≤ 1)) ∧
    (∀ h, DbEffect.addHistory h ∈ (applyPhase c2wtask c2wes).2.1 →
      h.stamped = true ∧ h.pairs ≠ [] ∧
      DbEffect.addItem h.model_rid ∉ (applyPhase c2wtask c2wes).2.1 ∧
      (∃ entry, alookup h.model_rid c2wes.updates = some entry ∧
        entry.creating = false) ∧
      ∀ q ∈ h.pairs, q.2.1 = bornVal c2wtask h.model_rid q.1 ∧
        pyEq q.2.2 q.2.1 = false) := by
  have hmain := c2_history c2wtask (fun _ => pyEq) c2wes [c2wcnt] rfl
    (by
      intro s hs nc hnc v w hvw
      have hs2 : s = c2wsrc := List.mem_singleton.mp hs
      subst hs2
      rcases List.mem_cons.mp hnc with h1 | h1
      · subst h1
        exact hvw
      · have h2 : nc = ("col1", histCol) := List.mem_singleton.mp h1
        subst h2
        exact hvw)
    rfl
  exact ⟨rfl, rfl, hmain.1, hmain.2⟩

end SimpletasksData
